import Mathlib

/-!
Verification of the sync-settings package (src/lib/sync-settings.js).

This file gives a shallow embedding of the data model and the operations of
the repository that the verified claims are about:

- JSON-shaped values (the settings trees, package maps and file maps that the
  program passes around), mirroring the JavaScript value model including the
  undefined value;
- the diff engine getDiffData together with settingsToKeyPaths and
  addDiffFile (sync-settings.js lines 916-1042);
- the structural object diff of the deep-object-diff dependency, modelled
  from the specification of the diff semantics;
- the blacklist filtering getFilteredSettings / addFilteredSettings /
  updateSettings (lines 644-687) over a model of the host config store;
- the blob classifier getBackupData (lines 533-642);
- the bounded-concurrency batch executor used by installMissingPackages and
  removeObsoletePackages (lines 689-824), as a small-step transition system
  whose atomic steps are the synchronous segments between awaits of the
  JavaScript worker chains;
- sortObject (line 307) and the file-name iteration order of the diff engine
  (lines 982-986).

Machine integers do not occur: the program manipulates strings, booleans and
JSON numbers only for identity and equality, so numbers are embedded as Int.
-/

/--
JSON-shaped runtime values as the JavaScript code sees them.  The constructor
undef mirrors the JavaScript undefined value, which the source manipulates
explicitly (deleted diff entries hold undefined, and property access on a
missing key yields undefined).  Numbers are embedded as Int: the program never
does arithmetic on them, it only tests equality.  Objects are ordered field
lists, mirroring JavaScript insertion-ordered objects; well-formed objects
(predicate jWF below) have no duplicate keys, as JavaScript objects cannot.
-/
inductive JVal : Type where
  | undef : JVal
  | null : JVal
  | bool : Bool → JVal
  | num : Int → JVal
  | str : String → JVal
  | arr : List JVal → JVal
  | obj : List (String × JVal) → JVal
deriving Repr, Inhabited

mutual
/-- Boolean structural equality on JVal, mirroring value equality. -/
def jEq : JVal → JVal → Bool
  | JVal.undef, JVal.undef => true
  | JVal.null, JVal.null => true
  | JVal.bool a, JVal.bool b => a == b
  | JVal.num a, JVal.num b => a == b
  | JVal.str a, JVal.str b => a == b
  | JVal.arr xs, JVal.arr ys => jEqList xs ys
  | JVal.obj xs, JVal.obj ys => jEqFields xs ys
  | _, _ => false

/-- Structural equality on value lists. -/
def jEqList : List JVal → List JVal → Bool
  | [], [] => true
  | x :: xs, y :: ys => jEq x y && jEqList xs ys
  | _, _ => false

/-- Structural equality on field lists. -/
def jEqFields : List (String × JVal) → List (String × JVal) → Bool
  | [], [] => true
  | (k, v) :: xs, (l, w) :: ys => k == l && jEq v w && jEqFields xs ys
  | _, _ => false
end

mutual
theorem jEq_refl : ∀ v : JVal, jEq v v = true
  | JVal.undef => rfl
  | JVal.null => rfl
  | JVal.bool _ => by simp [jEq]
  | JVal.num _ => by simp [jEq]
  | JVal.str _ => by simp [jEq]
  | JVal.arr xs => by simp [jEq, jEqList_refl xs]
  | JVal.obj xs => by simp [jEq, jEqFields_refl xs]

theorem jEqList_refl : ∀ xs : List JVal, jEqList xs xs = true
  | [] => rfl
  | x :: xs => by simp [jEqList, jEq_refl x, jEqList_refl xs]

theorem jEqFields_refl : ∀ xs : List (String × JVal), jEqFields xs xs = true
  | [] => rfl
  | (k, v) :: xs => by simp [jEqFields, jEq_refl v, jEqFields_refl xs]
end

mutual
theorem jEq_eq : ∀ {a b : JVal}, jEq a b = true → a = b
  | JVal.undef, JVal.undef, _ => rfl
  | JVal.null, JVal.null, _ => rfl
  | JVal.bool _, JVal.bool _, h => by
      simp only [jEq, beq_iff_eq] at h; rw [h]
  | JVal.num _, JVal.num _, h => by
      simp only [jEq, beq_iff_eq] at h; rw [h]
  | JVal.str _, JVal.str _, h => by
      simp only [jEq, beq_iff_eq] at h; rw [h]
  | JVal.arr xs, JVal.arr ys, h => by
      simp only [jEq] at h; rw [jEqList_eq h]
  | JVal.obj xs, JVal.obj ys, h => by
      simp only [jEq] at h; rw [jEqFields_eq h]
  | JVal.undef, JVal.null, h => by simp [jEq] at h
  | JVal.undef, JVal.bool _, h => by simp [jEq] at h
  | JVal.undef, JVal.num _, h => by simp [jEq] at h
  | JVal.undef, JVal.str _, h => by simp [jEq] at h
  | JVal.undef, JVal.arr _, h => by simp [jEq] at h
  | JVal.undef, JVal.obj _, h => by simp [jEq] at h
  | JVal.null, JVal.undef, h => by simp [jEq] at h
  | JVal.null, JVal.bool _, h => by simp [jEq] at h
  | JVal.null, JVal.num _, h => by simp [jEq] at h
  | JVal.null, JVal.str _, h => by simp [jEq] at h
  | JVal.null, JVal.arr _, h => by simp [jEq] at h
  | JVal.null, JVal.obj _, h => by simp [jEq] at h
  | JVal.bool _, JVal.undef, h => by simp [jEq] at h
  | JVal.bool _, JVal.null, h => by simp [jEq] at h
  | JVal.bool _, JVal.num _, h => by simp [jEq] at h
  | JVal.bool _, JVal.str _, h => by simp [jEq] at h
  | JVal.bool _, JVal.arr _, h => by simp [jEq] at h
  | JVal.bool _, JVal.obj _, h => by simp [jEq] at h
  | JVal.num _, JVal.undef, h => by simp [jEq] at h
  | JVal.num _, JVal.null, h => by simp [jEq] at h
  | JVal.num _, JVal.bool _, h => by simp [jEq] at h
  | JVal.num _, JVal.str _, h => by simp [jEq] at h
  | JVal.num _, JVal.arr _, h => by simp [jEq] at h
  | JVal.num _, JVal.obj _, h => by simp [jEq] at h
  | JVal.str _, JVal.undef, h => by simp [jEq] at h
  | JVal.str _, JVal.null, h => by simp [jEq] at h
  | JVal.str _, JVal.bool _, h => by simp [jEq] at h
  | JVal.str _, JVal.num _, h => by simp [jEq] at h
  | JVal.str _, JVal.arr _, h => by simp [jEq] at h
  | JVal.str _, JVal.obj _, h => by simp [jEq] at h
  | JVal.arr _, JVal.undef, h => by simp [jEq] at h
  | JVal.arr _, JVal.null, h => by simp [jEq] at h
  | JVal.arr _, JVal.bool _, h => by simp [jEq] at h
  | JVal.arr _, JVal.num _, h => by simp [jEq] at h
  | JVal.arr _, JVal.str _, h => by simp [jEq] at h
  | JVal.arr _, JVal.obj _, h => by simp [jEq] at h
  | JVal.obj _, JVal.undef, h => by simp [jEq] at h
  | JVal.obj _, JVal.null, h => by simp [jEq] at h
  | JVal.obj _, JVal.bool _, h => by simp [jEq] at h
  | JVal.obj _, JVal.num _, h => by simp [jEq] at h
  | JVal.obj _, JVal.str _, h => by simp [jEq] at h
  | JVal.obj _, JVal.arr _, h => by simp [jEq] at h

theorem jEqList_eq : ∀ {xs ys : List JVal}, jEqList xs ys = true → xs = ys
  | [], [], _ => rfl
  | x :: xs, y :: ys, h => by
      simp only [jEqList, Bool.and_eq_true] at h
      rw [jEq_eq h.1, jEqList_eq h.2]
  | [], _ :: _, h => by simp [jEqList] at h
  | _ :: _, [], h => by simp [jEqList] at h

theorem jEqFields_eq : ∀ {xs ys : List (String × JVal)}, jEqFields xs ys = true → xs = ys
  | [], [], _ => rfl
  | (k, v) :: xs, (l, w) :: ys, h => by
      simp only [jEqFields, Bool.and_eq_true] at h
      have hk : k = l := by simpa using h.1.1
      rw [jEq_eq h.1.2, jEqFields_eq h.2, hk]
  | [], _ :: _, h => by simp [jEqFields] at h
  | _ :: _, [], h => by simp [jEqFields] at h
end

instance : DecidableEq JVal := fun a b =>
  if h : jEq a b = true then isTrue (jEq_eq h)
  else isFalse (fun he => h (he ▸ jEq_refl a))

/-- JavaScript truthiness of a value. -/
def jTruthy : JVal → Bool
  | JVal.undef => false
  | JVal.null => false
  | JVal.bool b => b
  | JVal.num n => n != 0
  | JVal.str s => s != ""
  | JVal.arr _ => true
  | JVal.obj _ => true

/-- First binding of a key in a field list, as JavaScript property lookup. -/
def jLookup : List (String × JVal) → String → Option JVal
  | [], _ => none
  | (k, v) :: fs, key => if k = key then some v else jLookup fs key

/--
Property access on a value: a missing key or a non-object receiver yields
undefined, as in JavaScript (the source only applies this to objects).
-/
def jGetField (v : JVal) (key : String) : JVal :=
  match v with
  | JVal.obj fs => (jLookup fs key).getD JVal.undef
  | _ => JVal.undef

/--
The enumerable fields a JavaScript for-in loop visits: object entries, or
array elements keyed by their decimal index.  Primitives yield no iterations
(string character indices are not modelled; the source never iterates a
string).
-/
def jEnumFields : JVal → List (String × JVal)
  | JVal.obj fs => fs
  | JVal.arr xs => (List.range xs.length).zip xs |>.map (fun p => (toString p.1, p.2))
  | _ => []

/-- The keys Object.keys would report (same caveat on strings as jEnumFields). -/
def jObjKeys (v : JVal) : List String :=
  (jEnumFields v).map Prod.fst

/-- Whether Object.keys of the value is non-empty. -/
def jHasKeys (v : JVal) : Bool :=
  !(jObjKeys v).isEmpty

/-- Replace the first binding of a key, or append the binding at the end. -/
def jUpsert : List (String × JVal) → String → JVal → List (String × JVal)
  | [], key, v => [(key, v)]
  | (k, w) :: fs, key, v =>
      if k = key then (k, v) :: fs else (k, w) :: jUpsert fs key v

mutual
/--
Well-formed values: every object along the value has pairwise distinct keys,
which is an invariant of every value a JavaScript object can denote.
-/
def jWF : JVal → Bool
  | JVal.arr xs => jWFList xs
  | JVal.obj fs => decide (fs.map Prod.fst).Nodup && jWFFields fs
  | _ => true

/-- Well-formedness of the elements of an array. -/
def jWFList : List JVal → Bool
  | [] => true
  | x :: xs => jWF x && jWFList xs

/-- Well-formedness of the values of a field list. -/
def jWFFields : List (String × JVal) → Bool
  | [] => true
  | (_, v) :: fs => jWF v && jWFFields fs
end

/--
Modelled from the spec: key paths in the key-path-helpers dependency (used by
addFilteredSettings at line 656 of sync-settings.js and by the host config
store) are dot-joined addresses of a leaf within the nested settings tree.
The dependency is not part of this repository, so its splitting is modelled
as splitting the character sequence on every dot (backslash escaping of dots
is not exercised by any claim and is not modelled).  The splitter always
returns at least one segment, so a key path is never the empty path.
-/
def splitDotAux : List Char → List Char → List String
  | [], acc => [String.mk acc.reverse]
  | c :: cs, acc =>
      if c = '.' then String.mk acc.reverse :: splitDotAux cs []
      else splitDotAux cs (c :: acc)

def splitKeyPath (keyPath : String) : List String :=
  splitDotAux keyPath.data []

/--
Modelled from the spec: getValueAtKeyPath of the key-path-helpers dependency
and the keyPath reads of the host config store.  Walking a missing key, or
descending into a non-object, yields undefined.
-/
def getPath : JVal → List String → JVal
  | v, [] => v
  | JVal.obj fs, k :: ks =>
      match jLookup fs k with
      | some v => getPath v ks
      | none => JVal.undef
  | _, _ :: _ => JVal.undef

/-- Remove the binding of a key from a field list (the delete statement). -/
def removeKey : List (String × JVal) → String → List (String × JVal)
  | [], _ => []
  | (a, v) :: fs, k => if a = k then removeKey fs k else (a, v) :: removeKey fs k

/-- Rewrite the value stored under one key, leaving other bindings alone. -/
def mapAtKey : List (String × JVal) → String → (JVal → JVal) → List (String × JVal)
  | [], _, _ => []
  | (a, v) :: fs, k, f =>
      if a = k then (a, f v) :: mapAtKey fs k f else (a, v) :: mapAtKey fs k f

/--
Modelled from the spec: deleteValueAtKeyPath of the key-path-helpers
dependency, used by getFilteredSettings (line 683).  The final key is removed
from its parent object; if the walk meets a missing key or a non-object the
call is a no-op (mirroring the early return on a nullish intermediate and the
silent no-op of deleting a property of a primitive).
-/
def delPath : JVal → List String → JVal
  | t, [] => t
  | JVal.obj fs, [k] => JVal.obj (removeKey fs k)
  | JVal.obj fs, k :: ks =>
      JVal.obj (mapAtKey fs k (fun w => delPath w ks))
  | t, _ :: _ => t

/--
Modelled from the spec: setValueAtKeyPath of the key-path-helpers dependency,
used by addFilteredSettings (line 664).  Intermediate nullish values are
replaced by fresh empty objects; descending into a non-nullish primitive
leaves it unchanged (property assignment on a primitive is a silent no-op in
non-strict JavaScript), and assignment on a non-object root is a no-op.
-/
def setPath : JVal → List String → JVal → JVal
  | t, [], _ => t
  | JVal.obj fs, [k], v => JVal.obj (jUpsert fs k v)
  | JVal.obj fs, k :: ks, v =>
      match jLookup fs k with
      | some w =>
          if w = JVal.null ∨ w = JVal.undef then
            JVal.obj (jUpsert fs k (setPath (JVal.obj []) ks v))
          else
            JVal.obj (mapAtKey fs k (fun w => setPath w ks v))
      | none => JVal.obj (fs ++ [(k, setPath (JVal.obj []) ks v)])
  | t, _ :: _, _ => t

/--
Whether setPath will actually store the value at the full path: the walk must
stay inside objects (or create fresh ones at nullish or missing keys) all the
way down.  This is the precondition under which the silent-no-op behaviour of
property assignment on primitives cannot fire.
-/
def canSetPath : JVal → List String → Bool
  | JVal.obj _, [_] => true
  | JVal.obj fs, k :: ks =>
      match jLookup fs k with
      | some w =>
          if w = JVal.null ∨ w = JVal.undef then canSetPath (JVal.obj []) ks
          else canSetPath w ks
      | none => canSetPath (JVal.obj []) ks
  | _, _ => false

theorem jLookup_sizeOf {fs : List (String × JVal)} {key : String} {v : JVal}
    (h : jLookup fs key = some v) : sizeOf v < sizeOf fs := by
  induction fs with
  | nil => simp [jLookup] at h
  | cons p fs ih =>
    obtain ⟨k, w⟩ := p
    by_cases hk : k = key
    · simp only [jLookup, if_pos hk] at h
      cases h
      simp only [List.cons.sizeOf_spec, Prod.mk.sizeOf_spec]
      omega
    · simp only [jLookup, if_neg hk] at h
      have := ih h
      simp only [List.cons.sizeOf_spec]
      omega

theorem mem_sizeOf_snd {fs : List (String × JVal)} {p : String × JVal}
    (h : p ∈ fs) : sizeOf p.2 < sizeOf fs := by
  induction fs with
  | nil => cases h
  | cons q fs ih =>
    rw [List.mem_cons] at h
    rcases h with h | h
    · subst h
      obtain ⟨a, b⟩ := p
      simp only [List.cons.sizeOf_spec, Prod.mk.sizeOf_spec]
      omega
    · have := ih h
      simp only [List.cons.sizeOf_spec]
      omega

mutual
/--
Modelled from the spec: the added component of the structural diff computed
by the deep-object-diff dependency (detailedDiff at lines 924 and 949 of
sync-settings.js).  A key present only on the right side is added with its
right value; a key present on both sides recurses, keeping a non-empty
sub-result.  Per the data-model invariant of the spec, arrays are leaves and
are never descended into, and values are compared structurally.
-/
def addedDiff : JVal → JVal → JVal
  | JVal.obj ls, JVal.obj rs => JVal.obj (addedFields ls rs)
  | _, _ => JVal.obj []
termination_by l r => sizeOf l + sizeOf r

/-- The field traversal of addedDiff: iterate the right fields, looking left. -/
def addedFields : List (String × JVal) → List (String × JVal) → List (String × JVal)
  | _, [] => []
  | ls, (k, rv) :: rest =>
      match h : jLookup ls k with
      | some lv =>
          let d := addedDiff lv rv
          if d = JVal.obj [] then addedFields ls rest else (k, d) :: addedFields ls rest
      | none => (k, rv) :: addedFields ls rest
termination_by ls rs => sizeOf ls + sizeOf rs
decreasing_by all_goals
  first
  | (simp only [JVal.obj.sizeOf_spec]; omega)
  | (have h1 := jLookup_sizeOf h
     simp only [List.cons.sizeOf_spec, Prod.mk.sizeOf_spec]
     omega)
  | (simp only [List.cons.sizeOf_spec, Prod.mk.sizeOf_spec]; omega)
end

mutual
/--
Modelled from the spec: the deleted component of the structural diff of the
deep-object-diff dependency.  A key present only on the left side is reported
with value undefined (the dependency marks deletions with undefined); a key
present on both sides recurses, keeping a non-empty sub-result.
-/
def deletedDiff : JVal → JVal → JVal
  | JVal.obj ls, JVal.obj rs => JVal.obj (deletedFields ls rs)
  | _, _ => JVal.obj []
termination_by l r => sizeOf l + sizeOf r

/-- The field traversal of deletedDiff: iterate the left fields, looking right. -/
def deletedFields : List (String × JVal) → List (String × JVal) → List (String × JVal)
  | [], _ => []
  | (k, lv) :: rest, rs =>
      match h : jLookup rs k with
      | some rv =>
          let d := deletedDiff lv rv
          if d = JVal.obj [] then deletedFields rest rs else (k, d) :: deletedFields rest rs
      | none => (k, JVal.undef) :: deletedFields rest rs
termination_by ls rs => sizeOf ls + sizeOf rs
decreasing_by all_goals
  first
  | (simp only [JVal.obj.sizeOf_spec]; omega)
  | (have h1 := jLookup_sizeOf h
     simp only [List.cons.sizeOf_spec, Prod.mk.sizeOf_spec]
     omega)
  | (simp only [List.cons.sizeOf_spec, Prod.mk.sizeOf_spec]; omega)
end

mutual
/--
Modelled from the spec: the updated component of the structural diff of the
deep-object-diff dependency.  Equal values yield no diff; two objects recurse
over the keys present on both sides, keeping non-empty sub-results; otherwise
the right value is the update.  Arrays are leaves compared structurally, per
the data-model invariant of the spec.
-/
def updatedDiff (l r : JVal) : JVal :=
  if l = r then JVal.obj []
  else
    match l, r with
    | JVal.obj ls, JVal.obj rs => JVal.obj (updatedFields ls rs)
    | _, _ => r
termination_by sizeOf l + sizeOf r

/-- The field traversal of updatedDiff: iterate the right fields, looking left. -/
def updatedFields : List (String × JVal) → List (String × JVal) → List (String × JVal)
  | _, [] => []
  | ls, (k, rv) :: rest =>
      match h : jLookup ls k with
      | some lv =>
          let d := updatedDiff lv rv
          if d = JVal.obj [] then updatedFields ls rest else (k, d) :: updatedFields ls rest
      | none => updatedFields ls rest
termination_by ls rs => sizeOf ls + sizeOf rs
decreasing_by all_goals
  first
  | (simp only [JVal.obj.sizeOf_spec]; omega)
  | (have h1 := jLookup_sizeOf h
     simp only [List.cons.sizeOf_spec, Prod.mk.sizeOf_spec]
     omega)
  | (simp only [List.cons.sizeOf_spec, Prod.mk.sizeOf_spec]; omega)
end

theorem jLookup_of_nodup {fs : List (String × JVal)} {k : String} {v : JVal}
    (hnd : (fs.map Prod.fst).Nodup) (hm : (k, v) ∈ fs) : jLookup fs k = some v := by
  induction fs with
  | nil => cases hm
  | cons q fs ih =>
    obtain ⟨k0, v0⟩ := q
    simp only [List.map_cons, List.nodup_cons] at hnd
    rw [List.mem_cons] at hm
    rcases hm with hm | hm
    · rw [Prod.mk.injEq] at hm
      simp [jLookup, hm.1.symm, hm.2]
    · have hk : ¬ k0 = k := by
        intro he
        apply hnd.1
        rw [he]
        exact List.mem_map_of_mem Prod.fst hm
      simp only [jLookup, if_neg hk]
      exact ih hnd.2 hm

theorem jWF_obj_nodup {fs : List (String × JVal)}
    (h : jWF (JVal.obj fs) = true) : (fs.map Prod.fst).Nodup := by
  simp only [jWF, Bool.and_eq_true, decide_eq_true_eq] at h
  exact h.1

theorem jWF_obj_fields {fs : List (String × JVal)}
    (h : jWF (JVal.obj fs) = true) : jWFFields fs = true := by
  simp only [jWF, Bool.and_eq_true] at h
  exact h.2

theorem jWFFields_mem {fs : List (String × JVal)} {p : String × JVal}
    (h : jWFFields fs = true) (hm : p ∈ fs) : jWF p.2 = true := by
  induction fs with
  | nil => cases hm
  | cons q fs ih =>
    obtain ⟨a, b⟩ := q
    simp only [jWFFields, Bool.and_eq_true] at h
    rw [List.mem_cons] at hm
    rcases hm with hm | hm
    · subst hm; exact h.1
    · exact ih h.2 hm

theorem addedFields_nil (ls : List (String × JVal)) : addedFields ls [] = [] := by
  rw [addedFields]

theorem addedFields_cons_some {ls : List (String × JVal)} {k : String} {rv lv : JVal}
    {rest : List (String × JVal)} (hl : jLookup ls k = some lv) :
    addedFields ls ((k, rv) :: rest) =
      if addedDiff lv rv = JVal.obj [] then addedFields ls rest
      else (k, addedDiff lv rv) :: addedFields ls rest := by
  rw [addedFields]
  split
  · rename_i lv2 h2
    rw [hl] at h2
    cases h2
    rfl
  · rename_i h2
    rw [hl] at h2
    cases h2

theorem addedFields_cons_none {ls : List (String × JVal)} {k : String} {rv : JVal}
    {rest : List (String × JVal)} (hl : jLookup ls k = none) :
    addedFields ls ((k, rv) :: rest) = (k, rv) :: addedFields ls rest := by
  rw [addedFields]
  split
  · rename_i lv2 h2
    rw [hl] at h2
    cases h2
  · rfl

theorem deletedFields_nil (rs : List (String × JVal)) : deletedFields [] rs = [] := by
  rw [deletedFields]

theorem deletedFields_cons_some {rs : List (String × JVal)} {k : String} {lv rv : JVal}
    {rest : List (String × JVal)} (hl : jLookup rs k = some rv) :
    deletedFields ((k, lv) :: rest) rs =
      if deletedDiff lv rv = JVal.obj [] then deletedFields rest rs
      else (k, deletedDiff lv rv) :: deletedFields rest rs := by
  rw [deletedFields]
  split
  · rename_i rv2 h2
    rw [hl] at h2
    cases h2
    rfl
  · rename_i h2
    rw [hl] at h2
    cases h2

theorem deletedFields_cons_none {rs : List (String × JVal)} {k : String} {lv : JVal}
    {rest : List (String × JVal)} (hl : jLookup rs k = none) :
    deletedFields ((k, lv) :: rest) rs = (k, JVal.undef) :: deletedFields rest rs := by
  rw [deletedFields]
  split
  · rename_i rv2 h2
    rw [hl] at h2
    cases h2
  · rfl

theorem updatedFields_nil (ls : List (String × JVal)) : updatedFields ls [] = [] := by
  rw [updatedFields]

theorem updatedFields_cons_some {ls : List (String × JVal)} {k : String} {rv lv : JVal}
    {rest : List (String × JVal)} (hl : jLookup ls k = some lv) :
    updatedFields ls ((k, rv) :: rest) =
      if updatedDiff lv rv = JVal.obj [] then updatedFields ls rest
      else (k, updatedDiff lv rv) :: updatedFields ls rest := by
  rw [updatedFields]
  split
  · rename_i lv2 h2
    rw [hl] at h2
    cases h2
    rfl
  · rename_i h2
    rw [hl] at h2
    cases h2

theorem updatedFields_cons_none {ls : List (String × JVal)} {k : String} {rv : JVal}
    {rest : List (String × JVal)} (hl : jLookup ls k = none) :
    updatedFields ls ((k, rv) :: rest) = updatedFields ls rest := by
  rw [updatedFields]
  split
  · rename_i lv2 h2
    rw [hl] at h2
    cases h2
  · rfl

theorem addedDiff_not_both_obj {l r : JVal}
    (h : ∀ ls rs : List (String × JVal), l = JVal.obj ls → r = JVal.obj rs → False) :
    addedDiff l r = JVal.obj [] := by
  rw [addedDiff.eq_def]
  split
  · rename_i ls rs
    exact (h ls rs rfl rfl).elim
  · rfl

theorem deletedDiff_not_both_obj {l r : JVal}
    (h : ∀ ls rs : List (String × JVal), l = JVal.obj ls → r = JVal.obj rs → False) :
    deletedDiff l r = JVal.obj [] := by
  rw [deletedDiff.eq_def]
  split
  · rename_i ls rs
    exact (h ls rs rfl rfl).elim
  · rfl

theorem addedFields_self_aux (fs : List (String × JVal)) :
    ∀ rs : List (String × JVal),
      (∀ p ∈ rs, jLookup fs p.1 = some p.2) →
      (∀ p ∈ rs, addedDiff p.2 p.2 = JVal.obj []) →
      addedFields fs rs = []
  | [], _, _ => addedFields_nil fs
  | (k, rv) :: rest, h1, h2 => by
      have hl := h1 (k, rv) (List.mem_cons_self _ _)
      have hd := h2 (k, rv) (List.mem_cons_self _ _)
      rw [addedFields_cons_some hl, if_pos hd]
      exact addedFields_self_aux fs rest
        (fun p hp => h1 p (List.mem_cons_of_mem _ hp))
        (fun p hp => h2 p (List.mem_cons_of_mem _ hp))

theorem addedDiff_self (v : JVal) (hw : jWF v = true) : addedDiff v v = JVal.obj [] := by
  cases v with
  | obj fs =>
    rw [addedDiff]
    refine congrArg JVal.obj ?_
    apply addedFields_self_aux
    · intro p hp
      obtain ⟨k, w⟩ := p
      exact jLookup_of_nodup (jWF_obj_nodup hw) hp
    · intro p hp
      have hs : sizeOf p.2 < sizeOf (JVal.obj fs) := by
        have := mem_sizeOf_snd hp
        simp only [JVal.obj.sizeOf_spec]
        omega
      exact addedDiff_self p.2 (jWFFields_mem (jWF_obj_fields hw) hp)
  | undef => exact addedDiff_not_both_obj (by intro ls rs h1 h2; cases h1)
  | null => exact addedDiff_not_both_obj (by intro ls rs h1 h2; cases h1)
  | bool b => exact addedDiff_not_both_obj (by intro ls rs h1 h2; cases h1)
  | num n => exact addedDiff_not_both_obj (by intro ls rs h1 h2; cases h1)
  | str s => exact addedDiff_not_both_obj (by intro ls rs h1 h2; cases h1)
  | arr xs => exact addedDiff_not_both_obj (by intro ls rs h1 h2; cases h1)
termination_by sizeOf v

theorem deletedFields_self_aux (rs : List (String × JVal)) :
    ∀ ls : List (String × JVal),
      (∀ p ∈ ls, jLookup rs p.1 = some p.2) →
      (∀ p ∈ ls, deletedDiff p.2 p.2 = JVal.obj []) →
      deletedFields ls rs = []
  | [], _, _ => deletedFields_nil rs
  | (k, lv) :: rest, h1, h2 => by
      have hl := h1 (k, lv) (List.mem_cons_self _ _)
      have hd := h2 (k, lv) (List.mem_cons_self _ _)
      rw [deletedFields_cons_some hl, if_pos hd]
      exact deletedFields_self_aux rs rest
        (fun p hp => h1 p (List.mem_cons_of_mem _ hp))
        (fun p hp => h2 p (List.mem_cons_of_mem _ hp))

theorem deletedDiff_self (v : JVal) (hw : jWF v = true) : deletedDiff v v = JVal.obj [] := by
  cases v with
  | obj fs =>
    rw [deletedDiff]
    refine congrArg JVal.obj ?_
    apply deletedFields_self_aux
    · intro p hp
      obtain ⟨k, w⟩ := p
      exact jLookup_of_nodup (jWF_obj_nodup hw) hp
    · intro p hp
      have hs : sizeOf p.2 < sizeOf (JVal.obj fs) := by
        have := mem_sizeOf_snd hp
        simp only [JVal.obj.sizeOf_spec]
        omega
      exact deletedDiff_self p.2 (jWFFields_mem (jWF_obj_fields hw) hp)
  | undef => exact deletedDiff_not_both_obj (by intro ls rs h1 h2; cases h1)
  | null => exact deletedDiff_not_both_obj (by intro ls rs h1 h2; cases h1)
  | bool b => exact deletedDiff_not_both_obj (by intro ls rs h1 h2; cases h1)
  | num n => exact deletedDiff_not_both_obj (by intro ls rs h1 h2; cases h1)
  | str s => exact deletedDiff_not_both_obj (by intro ls rs h1 h2; cases h1)
  | arr xs => exact deletedDiff_not_both_obj (by intro ls rs h1 h2; cases h1)
termination_by sizeOf v

theorem updatedDiff_self (v : JVal) : updatedDiff v v = JVal.obj [] := by
  rw [updatedDiff.eq_def, if_pos rfl]

mutual
theorem addedDiff_nil_iff : ∀ l r : JVal,
    (addedDiff l r = JVal.obj []) ↔ (deletedDiff r l = JVal.obj [])
  | JVal.obj ls, JVal.obj rs => by
      rw [addedDiff, deletedDiff]
      simp only [JVal.obj.injEq]
      constructor
      · intro h
        have h1 : (deletedFields rs ls).map Prod.fst = [] := by
          rw [← addedFields_map_fst ls rs, h, List.map_nil]
        exact List.map_eq_nil.mp h1
      · intro h
        have h1 : (addedFields ls rs).map Prod.fst = [] := by
          rw [addedFields_map_fst ls rs, h, List.map_nil]
        exact List.map_eq_nil.mp h1
  | JVal.obj ls, JVal.undef => by
      rw [addedDiff_not_both_obj (by intro a b h1 h2; cases h2),
        deletedDiff_not_both_obj (by intro a b h1 h2; cases h1)]
  | JVal.obj ls, JVal.null => by
      rw [addedDiff_not_both_obj (by intro a b h1 h2; cases h2),
        deletedDiff_not_both_obj (by intro a b h1 h2; cases h1)]
  | JVal.obj ls, JVal.bool _ => by
      rw [addedDiff_not_both_obj (by intro a b h1 h2; cases h2),
        deletedDiff_not_both_obj (by intro a b h1 h2; cases h1)]
  | JVal.obj ls, JVal.num _ => by
      rw [addedDiff_not_both_obj (by intro a b h1 h2; cases h2),
        deletedDiff_not_both_obj (by intro a b h1 h2; cases h1)]
  | JVal.obj ls, JVal.str _ => by
      rw [addedDiff_not_both_obj (by intro a b h1 h2; cases h2),
        deletedDiff_not_both_obj (by intro a b h1 h2; cases h1)]
  | JVal.obj ls, JVal.arr _ => by
      rw [addedDiff_not_both_obj (by intro a b h1 h2; cases h2),
        deletedDiff_not_both_obj (by intro a b h1 h2; cases h1)]
  | JVal.undef, r => by
      rw [addedDiff_not_both_obj (by intro a b h1 h2; cases h1),
        deletedDiff_not_both_obj (by intro a b h1 h2; cases h2)]
  | JVal.null, r => by
      rw [addedDiff_not_both_obj (by intro a b h1 h2; cases h1),
        deletedDiff_not_both_obj (by intro a b h1 h2; cases h2)]
  | JVal.bool _, r => by
      rw [addedDiff_not_both_obj (by intro a b h1 h2; cases h1),
        deletedDiff_not_both_obj (by intro a b h1 h2; cases h2)]
  | JVal.num _, r => by
      rw [addedDiff_not_both_obj (by intro a b h1 h2; cases h1),
        deletedDiff_not_both_obj (by intro a b h1 h2; cases h2)]
  | JVal.str _, r => by
      rw [addedDiff_not_both_obj (by intro a b h1 h2; cases h1),
        deletedDiff_not_both_obj (by intro a b h1 h2; cases h2)]
  | JVal.arr _, r => by
      rw [addedDiff_not_both_obj (by intro a b h1 h2; cases h1),
        deletedDiff_not_both_obj (by intro a b h1 h2; cases h2)]
termination_by l r => sizeOf l + sizeOf r
decreasing_by all_goals (simp only [JVal.obj.sizeOf_spec]; omega)

theorem addedFields_map_fst : ∀ ls rs : List (String × JVal),
    (addedFields ls rs).map Prod.fst = (deletedFields rs ls).map Prod.fst
  | ls, [] => by rw [addedFields_nil, deletedFields_nil]
  | ls, (k, rv) :: rest => by
      cases hl : jLookup ls k with
      | some lv =>
        rw [addedFields_cons_some hl, deletedFields_cons_some hl]
        by_cases hd : addedDiff lv rv = JVal.obj []
        · have hd2 : deletedDiff rv lv = JVal.obj [] := (addedDiff_nil_iff lv rv).mp hd
          rw [if_pos hd, if_pos hd2]
          exact addedFields_map_fst ls rest
        · have hd2 : ¬ deletedDiff rv lv = JVal.obj [] :=
            fun hc => hd ((addedDiff_nil_iff lv rv).mpr hc)
          rw [if_neg hd, if_neg hd2]
          simp only [List.map_cons]
          rw [addedFields_map_fst ls rest]
      | none =>
        rw [addedFields_cons_none hl, deletedFields_cons_none hl]
        simp only [List.map_cons]
        rw [addedFields_map_fst ls rest]
termination_by ls rs => sizeOf ls + sizeOf rs
decreasing_by all_goals
  first
  | (have h1 := jLookup_sizeOf hl
     simp only [List.cons.sizeOf_spec, Prod.mk.sizeOf_spec]
     omega)
  | (simp only [List.cons.sizeOf_spec, Prod.mk.sizeOf_spec]; omega)
end

/-- Top-level key mirror between the added and deleted structural diffs. -/
theorem jObjKeys_added_deleted (l r : JVal) :
    jObjKeys (addedDiff l r) = jObjKeys (deletedDiff r l) := by
  cases l with
  | obj ls =>
    cases r with
    | obj rs =>
      rw [addedDiff, deletedDiff]
      simp only [jObjKeys, jEnumFields]
      exact addedFields_map_fst ls rs
    | undef =>
      rw [addedDiff_not_both_obj (by intro a b h1 h2; cases h2),
        deletedDiff_not_both_obj (by intro a b h1 h2; cases h1)]
    | null =>
      rw [addedDiff_not_both_obj (by intro a b h1 h2; cases h2),
        deletedDiff_not_both_obj (by intro a b h1 h2; cases h1)]
    | bool _ =>
      rw [addedDiff_not_both_obj (by intro a b h1 h2; cases h2),
        deletedDiff_not_both_obj (by intro a b h1 h2; cases h1)]
    | num _ =>
      rw [addedDiff_not_both_obj (by intro a b h1 h2; cases h2),
        deletedDiff_not_both_obj (by intro a b h1 h2; cases h1)]
    | str _ =>
      rw [addedDiff_not_both_obj (by intro a b h1 h2; cases h2),
        deletedDiff_not_both_obj (by intro a b h1 h2; cases h1)]
    | arr _ =>
      rw [addedDiff_not_both_obj (by intro a b h1 h2; cases h2),
        deletedDiff_not_both_obj (by intro a b h1 h2; cases h1)]
  | undef =>
    rw [addedDiff_not_both_obj (by intro a b h1 h2; cases h1),
      deletedDiff_not_both_obj (by intro a b h1 h2; cases h2)]
  | null =>
    rw [addedDiff_not_both_obj (by intro a b h1 h2; cases h1),
      deletedDiff_not_both_obj (by intro a b h1 h2; cases h2)]
  | bool _ =>
    rw [addedDiff_not_both_obj (by intro a b h1 h2; cases h1),
      deletedDiff_not_both_obj (by intro a b h1 h2; cases h2)]
  | num _ =>
    rw [addedDiff_not_both_obj (by intro a b h1 h2; cases h1),
      deletedDiff_not_both_obj (by intro a b h1 h2; cases h2)]
  | str _ =>
    rw [addedDiff_not_both_obj (by intro a b h1 h2; cases h1),
      deletedDiff_not_both_obj (by intro a b h1 h2; cases h2)]
  | arr _ =>
    rw [addedDiff_not_both_obj (by intro a b h1 h2; cases h1),
      deletedDiff_not_both_obj (by intro a b h1 h2; cases h2)]

/--
Modelled from the spec: the host collation used by String.prototype.localeCompare,
which sortObject (sync-settings.js line 307) uses as its default comparator.
The host function is locale sensitive and not part of this repository; the
model follows common ICU collations, which compare base letters first (so the
lowercase a orders before the uppercase B) and break ties by code points.
-/
def cmpNat (a b : Nat) : Ordering :=
  if a < b then Ordering.lt else if b < a then Ordering.gt else Ordering.eq

/-- Lexicographic comparison of code sequences. -/
def cmpCodes : List Nat → List Nat → Ordering
  | [], [] => Ordering.eq
  | [], _ :: _ => Ordering.lt
  | _ :: _, [] => Ordering.gt
  | a :: as, b :: bs =>
      match cmpNat a b with
      | Ordering.eq => cmpCodes as bs
      | o => o

/-- The code point of a character with ASCII letters folded to lowercase. -/
def lowerCode (c : Char) : Nat :=
  if 65 ≤ c.toNat ∧ c.toNat ≤ 90 then c.toNat + 32 else c.toNat

def localeCompareModel (a b : String) : Ordering :=
  match cmpCodes (a.data.map lowerCode) (b.data.map lowerCode) with
  | Ordering.eq => cmpCodes (a.data.map Char.toNat) (b.data.map Char.toNat)
  | o => o

/-- Stable insertion of one entry into a comparator-sorted entry list. -/
def insertByCmp (cmp : String → String → Ordering) (p : String × JVal) :
    List (String × JVal) → List (String × JVal)
  | [] => [p]
  | q :: qs =>
      if cmp p.1 q.1 = Ordering.gt then q :: insertByCmp cmp p qs else p :: q :: qs

/--
Source: sortObject (sync-settings.js lines 307-314).  Returns the entries of
an object sorted by the given key comparator; the JavaScript default
comparator is the locale-sensitive localeCompare of the keys, modelled by
localeCompareModel.  The rebuild through Object.entries and reduce is an
entry-list sort.
-/
def sortObject (fs : List (String × JVal))
    (cmp : String → String → Ordering := localeCompareModel) : List (String × JVal) :=
  match fs with
  | [] => []
  | p :: ps => insertByCmp cmp p (sortObject ps cmp)

/-- Deduplication keeping first occurrences, as iterating a JavaScript Set:
the accumulator holds the names already seen. -/
def dedupAux : List String → List String → List String
  | [], _ => []
  | x :: xs, seen =>
      if x ∈ seen then dedupAux xs seen else x :: dedupAux xs (x :: seen)

def dedupKeepFirst (l : List String) : List String :=
  dedupAux l []

/-- The string used where a file content is expected (contents are strings). -/
def jAsString : JVal → String
  | JVal.str s => s
  | _ => ""

/--
Modelled from the spec: the unified-diff text of the diff dependency
(createTwoFilesPatch at line 995; local as before, backup as after, two lines
of context).  No claim depends on the patch text itself, only on which entry
carries it, so the model renders both contents deterministically.
-/
def createTwoFilesPatch (localContent backupContent : JVal) : JVal :=
  JVal.str ("--- local\n+++ backup\n-" ++ jAsString localContent ++
    "\n+" ++ jAsString backupContent)

/--
Object spread followed by a property write, as the updated-file construction
at lines 993-996 (spread of backupFile with content replaced).
-/
def jSetField (v : JVal) (key : String) (w : JVal) : JVal :=
  JVal.obj (jUpsert (jEnumFields v) key w)

/-- The JavaScript or-else idiom value OR default, by truthiness. -/
def jOrElse (v w : JVal) : JVal :=
  if jTruthy v then v else w

/-- One flattened settings diff leaf: key path, new value, optional old value. -/
structure DiffEntry where
  keyPath : String
  value : JVal
  oldValue : Option JVal
deriving Repr, DecidableEq

/-- Whether typeof item is object and the item is not an array (line 1018).
In JavaScript typeof null is object, so null passes this test. -/
def jTypeofObjectNotArray : JVal → Bool
  | JVal.obj _ => true
  | JVal.null => true
  | _ => false

/--
Source: settingsToKeyPaths (sync-settings.js lines 1010-1032).  Flattens a
settings tree to dot-joined key paths; a nullish entry is re-read from the
live config (atom.config.get) before the object test, and when getOldValue is
set each leaf also records the live config value at its path.  The JavaScript
recursion re-enters the live config on nullish entries and need not terminate
for adversarial live-config functions, so the embedding indexes the recursion
depth by an explicit fuel; every property stated about it is proved for all
fuel values, and evaluations pick a sufficient fuel.
-/
def settingsToKeyPaths (live : String → JVal) :
    Nat → JVal → String → Bool → List DiffEntry
  | 0, _, _, _ => []
  | Nat.succ fuel, obj0, pfx, getOldValue =>
      (jEnumFields obj0).flatMap (fun p =>
        let nextPfx := if pfx ≠ "" then pfx ++ "." ++ p.1 else (if p.1 = "*" then "" else p.1)
        let item := if p.2 = JVal.null ∨ p.2 = JVal.undef then live nextPfx else p.2
        if jTypeofObjectNotArray item then
          settingsToKeyPaths live fuel item nextPfx getOldValue
        else
          [{ keyPath := nextPfx, value := item,
             oldValue := if getOldValue then some (live nextPfx) else none }])

/-- The settings sub-diff: up to three optional buckets of flattened leaves. -/
structure SettingsDiff where
  added : Option (List DiffEntry)
  updated : Option (List DiffEntry)
  deleted : Option (List DiffEntry)
deriving Repr, DecidableEq

/-- The packages sub-diff: up to three optional buckets of package objects. -/
structure PackagesDiff where
  added : Option JVal
  updated : Option JVal
  deleted : Option JVal
deriving Repr, DecidableEq

/-- The files sub-diff: up to three optional buckets of file entries. -/
structure FilesDiff where
  added : Option (List (String × JVal))
  updated : Option (List (String × JVal))
  deleted : Option (List (String × JVal))
deriving Repr, DecidableEq

/-- The three independent sub-diffs of a diff result; absent means null. -/
structure DiffData where
  settings : Option SettingsDiff
  packages : Option PackagesDiff
  files : Option FilesDiff
deriving Repr, DecidableEq

/--
A state snapshot as the source passes it around: each component is null when
the category is absent, mirroring the data initialisation of getLocalData and
getBackupData (lines 214-218 and 534-538).
-/
structure Snapshot where
  settings : JVal
  packages : JVal
  files : JVal
deriving Repr, DecidableEq

/-- The bucket selector of addDiffFile. -/
inductive FileBucket : Type where
  | added : FileBucket
  | updated : FileBucket
  | deleted : FileBucket
deriving Repr, DecidableEq

/-- The empty files sub-diff created lazily by addDiffFile. -/
def emptyFilesDiff : FilesDiff :=
  { added := none, updated := none, deleted := none }

/--
Source: addDiffFile (lines 1034-1042).  Lazily creates the files sub-diff,
then the bucket, then stores the entry under the file name.
-/
def addDiffFile (d : DiffData) (method : FileBucket) (fileName : String)
    (fileObj : JVal) : DiffData :=
  let fd := d.files.getD emptyFilesDiff
  let fd2 :=
    match method with
    | FileBucket.added => { fd with added := some (jUpsert (fd.added.getD []) fileName fileObj) }
    | FileBucket.updated => { fd with updated := some (jUpsert (fd.updated.getD []) fileName fileObj) }
    | FileBucket.deleted => { fd with deleted := some (jUpsert (fd.deleted.getD []) fileName fileObj) }
  { d with files := some fd2 }

/-- The default JavaScript Array.sort string ordering: plain lexicographic
comparison of the code sequences of the two strings. -/
def strLe (a b : String) : Bool :=
  match cmpCodes (a.data.map Char.toNat) (b.data.map Char.toNat) with
  | Ordering.gt => false
  | _ => true

/-- The sorted, deduplicated union of file names iterated at lines 983-986. -/
def diffFileNames (localFiles backupFiles : JVal) : List String :=
  List.insertionSort (fun a b => strLe a b = true)
    (dedupKeepFirst (jObjKeys (jOrElse localFiles (JVal.obj [])) ++
      jObjKeys (jOrElse backupFiles (JVal.obj []))))

/-- The per-file classification step of the loop at lines 988-1004. -/
def diffFileStep (localFiles backupFiles : JVal) (acc : DiffData)
    (fileName : String) : DiffData :=
  let backupFile := if jTruthy backupFiles then jGetField backupFiles fileName else JVal.null
  let localFile := if jTruthy localFiles then jGetField localFiles fileName else JVal.null
  if jTruthy backupFile && jTruthy localFile then
    if jGetField localFile "content" ≠ jGetField backupFile "content" then
      addDiffFile acc FileBucket.updated fileName
        (jSetField backupFile "content"
          (createTwoFilesPatch (jGetField localFile "content") (jGetField backupFile "content")))
    else acc
  else if jTruthy backupFile then addDiffFile acc FileBucket.added fileName backupFile
  else if jTruthy localFile then addDiffFile acc FileBucket.deleted fileName localFile
  else acc

/--
Source: getDiffData (sync-settings.js lines 916-1008).  live models the host
config store read atom.config.get used by settingsToKeyPaths; fuel bounds
that recursion (see settingsToKeyPaths).  Buckets of the detailed diff whose
key set is empty are dropped, and a sub-diff with no surviving bucket stays
null.  File contents are compared with strict string inequality (contents are
strings per the data model).
-/
def getDiffData (live : String → JVal) (fuel : Nat)
    (localData backupData : Snapshot) : DiffData :=
  let settingsPart : Option SettingsDiff :=
    if jTruthy backupData.settings && jTruthy localData.settings then
      let a := addedDiff localData.settings backupData.settings
      let u := updatedDiff localData.settings backupData.settings
      let d := deletedDiff localData.settings backupData.settings
      if jHasKeys a || jHasKeys u || jHasKeys d then
        some { added := if jHasKeys a then some (settingsToKeyPaths live fuel a "" false) else none,
               updated := if jHasKeys u then some (settingsToKeyPaths live fuel u "" true) else none,
               deleted := if jHasKeys d then some (settingsToKeyPaths live fuel d "" false) else none }
      else none
    else if jTruthy backupData.settings then
      some { added := some (settingsToKeyPaths live fuel backupData.settings "" false),
             updated := none, deleted := none }
    else if jTruthy localData.settings then
      some { added := none, updated := none,
             deleted := some (settingsToKeyPaths live fuel localData.settings "" false) }
    else none
  let packagesPart : Option PackagesDiff :=
    if jTruthy backupData.packages && jTruthy localData.packages then
      let a := addedDiff localData.packages backupData.packages
      let u := updatedDiff localData.packages backupData.packages
      let d := deletedDiff localData.packages backupData.packages
      if jHasKeys a || jHasKeys u || jHasKeys d then
        some { added := if jHasKeys a then some a else none,
               updated :=
                 if jHasKeys u then
                   some (JVal.obj ((jObjKeys u).map (fun name =>
                     (name, JVal.obj [("backup", jGetField backupData.packages name),
                                      ("local", jGetField localData.packages name)]))))
                 else none,
               deleted :=
                 if jHasKeys d then
                   some (JVal.obj ((jObjKeys d).map (fun name =>
                     (name, jGetField localData.packages name))))
                 else none }
      else none
    else if jTruthy backupData.packages then
      some { added := some backupData.packages, updated := none, deleted := none }
    else if jTruthy localData.packages then
      some { added := none, updated := none, deleted := some localData.packages }
    else none
  let base : DiffData := { settings := settingsPart, packages := packagesPart, files := none }
  if jTruthy localData.files || jTruthy backupData.files then
    (diffFileNames localData.files backupData.files).foldl
      (diffFileStep localData.files backupData.files) base
  else base

/--
Source: the missing-package selection of installMissingPackages (lines
767-776).  The predicate mirrors line 770 verbatim, including the fact that
it reads apmInstallSource off the package NAME string p (a string has no such
property, so that side is always undefined and its negation always true).
-/
def missingPackageNames (availablePackages packages : JVal) : List String :=
  (jObjKeys packages).filter (fun p =>
    !(jTruthy (jGetField availablePackages p)) ||
      ((!(jTruthy (jGetField (JVal.str p) "apmInstallSource"))) !=
        (!(jTruthy (jGetField (jGetField availablePackages p) "apmInstallSource")))))

/-- Source: the obsolete-package selection of removeObsoletePackages (lines 690-698). -/
def obsoletePackageNames (installedPackages packages : JVal) : List String :=
  (jObjKeys installedPackages).filter (fun i => !(jTruthy (jGetField packages i)))

/-- Source: REMOVE_KEYS (sync-settings.js lines 21-29), the fixed blacklist. -/
def REMOVE_KEYS : List String :=
  ["sync-settings.gistId",
   "sync-settings.personalAccessToken",
   "sync-settings.hiddenSettings._lastBackupTime",
   "sync-settings._analyticsUserId",
   "sync-settings._lastBackupHash",
   "sync-settings.hiddenSettings._lastBackupHash"]

/--
Model of the host config store state: the global settings tree
(atom.config.settings) and the scoped override trees keyed by scope selector
(scopedSettingsStore.propertiesForSource of the main source, line 676).
-/
structure ConfigStore where
  global : JVal
  scopedTrees : List (String × JVal)
deriving Repr, DecidableEq

/--
Modelled from the spec: atom.config.get of the host configuration store
collaborator reads the live value at a key path of the global settings tree.
-/
def configGet (cfg : ConfigStore) (keyPath : String) : JVal :=
  getPath cfg.global (splitKeyPath keyPath)

/-- Whether the star key is a top-level property, as the in test of line 645. -/
def jHasKey (v : JVal) (k : String) : Bool :=
  match v with
  | JVal.obj fs => (jLookup fs k).isSome
  | _ => false

/--
Source: getFilteredSettings (lines 671-687).  The snapshot settings tree is
the global tree under the star scope plus the scoped override trees; every
blacklisted key (REMOVE_KEYS plus the user list held by the
sync-settings.blacklistedKeys setting, passed here as a parameter) is then
deleted from the star subtree.  The deep clone via JSON stringify and parse
is the identity on the JSON-safe trees a config store denotes.
-/
def getFilteredSettings (cfg : ConfigStore) (userBlacklist : List String) : JVal :=
  let star := (REMOVE_KEYS ++ userBlacklist).foldl
    (fun t k => delPath t (splitKeyPath k)) cfg.global
  JVal.obj (("*", star) :: cfg.scopedTrees)

/--
Source: addFilteredSettings (lines 655-669): re-seed each blacklisted key
whose live config value is defined into the star subtree of the inbound
settings tree.
-/
def addFilteredSettings (cfg : ConfigStore) (userBlacklist : List String)
    (settings : JVal) : JVal :=
  (REMOVE_KEYS ++ userBlacklist).foldl
    (fun s k =>
      let value := configGet cfg k
      if value ≠ JVal.undef then
        jSetField s "*" (setPath (jGetField s "*") (splitKeyPath k) value)
      else s)
    settings

/--
Modelled from the spec: atom.config.set with a null key path at a scope
selector (line 651) stores the whole tree at that scope; the star selector
addresses the global tree.
-/
def configSetAll (cfg : ConfigStore) (scopeSelector : String) (tree : JVal) : ConfigStore :=
  if scopeSelector = "*" then { cfg with global := tree }
  else { cfg with scopedTrees := jUpsert cfg.scopedTrees scopeSelector tree }

/--
Source: updateSettings (lines 644-653): a tree lacking a top-level star scope
(a backup from before v2.0.2) is wrapped as the global scope, the blacklist
is re-seeded, and every scope of the result is applied to the config store.
-/
def wrapStar (settings : JVal) : JVal :=
  if jHasKey settings "*" then settings else JVal.obj [("*", settings)]

def updateSettings (cfg : ConfigStore) (userBlacklist : List String)
    (settings : JVal) : ConfigStore :=
  let settings1 := wrapStar settings
  let settings2 := addFilteredSettings cfg userBlacklist settings1
  (jEnumFields settings2).foldl (fun c p => configSetAll c p.1 p.2) cfg


theorem splitDotAux_ne_nil : ∀ (cs acc : List Char), splitDotAux cs acc ≠ [] := by
  intro cs
  induction cs with
  | nil => intro acc; simp [splitDotAux]
  | cons c cs ih =>
    intro acc
    rw [splitDotAux]
    by_cases h : c = '.'
    · simp [h]
    · rw [if_neg h]
      exact ih _

theorem splitKeyPath_ne_nil (k : String) : splitKeyPath k ≠ [] :=
  splitDotAux_ne_nil _ _

theorem jLookup_removeKey_self (fs : List (String × JVal)) (k : String) :
    jLookup (removeKey fs k) k = none := by
  induction fs with
  | nil => rfl
  | cons p fs ih =>
    obtain ⟨a, v⟩ := p
    by_cases ha : a = k
    · simpa [removeKey, ha] using ih
    · simp only [removeKey, if_neg ha, jLookup, if_neg ha]
      exact ih

theorem jLookup_removeKey_other {a k : String} (h : a ≠ k) (fs : List (String × JVal)) :
    jLookup (removeKey fs k) a = jLookup fs a := by
  induction fs with
  | nil => rfl
  | cons p fs ih =>
    obtain ⟨b, v⟩ := p
    by_cases hb : b = k
    · have hba : ¬ b = a := by
        rw [hb]
        exact fun he => h he.symm
      simp only [removeKey, if_pos hb, jLookup, if_neg hba]
      exact ih
    · simp only [removeKey, if_neg hb, jLookup]
      by_cases hba : b = a
      · simp [hba]
      · rw [if_neg hba, if_neg hba]
        exact ih

theorem jLookup_mapAtKey_self (fs : List (String × JVal)) (k : String) (f : JVal → JVal) :
    jLookup (mapAtKey fs k f) k = (jLookup fs k).map f := by
  induction fs with
  | nil => rfl
  | cons p fs ih =>
    obtain ⟨b, v⟩ := p
    by_cases hb : b = k
    · simp [mapAtKey, hb, jLookup]
    · simp only [mapAtKey, if_neg hb, jLookup, if_neg hb]
      exact ih

theorem jLookup_mapAtKey_other {a k : String} (h : a ≠ k) (fs : List (String × JVal))
    (f : JVal → JVal) :
    jLookup (mapAtKey fs k f) a = jLookup fs a := by
  induction fs with
  | nil => rfl
  | cons p fs ih =>
    obtain ⟨b, v⟩ := p
    by_cases hb : b = k
    · have hba : ¬ b = a := by rw [hb]; exact fun he => h he.symm
      simp only [mapAtKey, if_pos hb, jLookup, if_neg hba]
      exact ih
    · simp only [mapAtKey, if_neg hb, jLookup]
      by_cases hba : b = a
      · simp [hba]
      · rw [if_neg hba, if_neg hba]
        exact ih

theorem jLookup_append (fs gs : List (String × JVal)) (a : String) :
    jLookup (fs ++ gs) a =
      (match jLookup fs a with
       | some v => some v
       | none => jLookup gs a) := by
  induction fs with
  | nil => rfl
  | cons p fs ih =>
    obtain ⟨b, v⟩ := p
    by_cases hb : b = a
    · simp [jLookup, hb]
    · simp only [List.cons_append, jLookup, if_neg hb]
      exact ih

theorem jLookup_jUpsert_self (fs : List (String × JVal)) (k : String) (v : JVal) :
    jLookup (jUpsert fs k v) k = some v := by
  induction fs with
  | nil => simp [jUpsert, jLookup]
  | cons p fs ih =>
    obtain ⟨b, w⟩ := p
    by_cases hb : b = k
    · simp [jUpsert, hb, jLookup]
    · simp only [jUpsert, if_neg hb, jLookup, if_neg hb]
      exact ih

theorem jLookup_jUpsert_other {a k : String} (h : a ≠ k) (fs : List (String × JVal))
    (v : JVal) :
    jLookup (jUpsert fs k v) a = jLookup fs a := by
  induction fs with
  | nil =>
    have hka : ¬ k = a := fun he => h he.symm
    simp [jUpsert, jLookup, hka]
  | cons p fs ih =>
    obtain ⟨b, w⟩ := p
    by_cases hb : b = k
    · have hba : ¬ b = a := by
        rw [hb]
        exact fun he => h he.symm
      simp only [jUpsert, if_pos hb, jLookup, if_neg hba]
    · simp only [jUpsert, if_neg hb]
      by_cases hba : b = a
      · simp [jLookup, hba]
      · simp only [jLookup, if_neg hba]
        exact ih

theorem getPath_delPath_self : ∀ (ks : List String) (t : JVal), ks ≠ [] →
    getPath (delPath t ks) ks = JVal.undef
  | [], _, h => absurd rfl h
  | [k], t, _ => by
      cases t with
      | obj fs => simp [delPath, getPath, jLookup_removeKey_self]
      | undef => simp [delPath, getPath]
      | null => simp [delPath, getPath]
      | bool b => simp [delPath, getPath]
      | num n => simp [delPath, getPath]
      | str s => simp [delPath, getPath]
      | arr xs => simp [delPath, getPath]
  | k :: k2 :: ks, t, _ => by
      cases t with
      | obj fs =>
        simp only [delPath, getPath, jLookup_mapAtKey_self]
        cases hl : jLookup fs k with
        | some w =>
          simp only [hl, Option.map_some']
          exact getPath_delPath_self (k2 :: ks) w (by simp)
        | none => simp [hl]
      | undef => simp [delPath, getPath]
      | null => simp [delPath, getPath]
      | bool b => simp [delPath, getPath]
      | num n => simp [delPath, getPath]
      | str s => simp [delPath, getPath]
      | arr xs => simp [delPath, getPath]

theorem getPath_delPath_preserve : ∀ (t : JVal) (ks2 ks : List String), ks ≠ [] →
    getPath t ks = JVal.undef → getPath (delPath t ks2) ks = JVal.undef
  | t, [], ks, _, h => by simpa [delPath] using h
  | JVal.obj fs, [k2], ks, h0, h => by
      cases ks with
      | nil => exact absurd rfl h0
      | cons k ks1 =>
        simp only [delPath, getPath]
        by_cases hk : k = k2
        · subst hk
          simp [jLookup_removeKey_self]
        · rw [jLookup_removeKey_other hk]
          cases hl : jLookup fs k with
          | some w =>
            simp only [getPath, hl] at h
            simpa [hl] using h
          | none => simp [hl]
  | JVal.undef, _ :: _, ks, h0, h => by simpa [delPath] using h
  | JVal.null, _ :: _, ks, h0, h => by simpa [delPath] using h
  | JVal.bool b, _ :: _, ks, h0, h => by simpa [delPath] using h
  | JVal.num n, _ :: _, ks, h0, h => by simpa [delPath] using h
  | JVal.str st, _ :: _, ks, h0, h => by simpa [delPath] using h
  | JVal.arr xs, _ :: _, ks, h0, h => by simpa [delPath] using h
  | JVal.obj fs, k2 :: k2b :: ks2, ks, h0, h => by
      cases ks with
      | nil => exact absurd rfl h0
      | cons k ks1 =>
        simp only [delPath, getPath]
        by_cases hk : k = k2
        · subst hk
          rw [jLookup_mapAtKey_self]
          cases hl : jLookup fs k with
          | some w =>
            simp only [Option.map_some']
            have hw : getPath w ks1 = JVal.undef := by
              simp only [getPath, hl] at h
              simpa using h
            cases ks1 with
            | nil =>
              simp only [getPath] at hw
              subst hw
              simp [delPath, getPath]
            | cons a as =>
              exact getPath_delPath_preserve w (k2b :: ks2) (a :: as) (by simp) hw
          | none => simp
        · rw [jLookup_mapAtKey_other hk]
          cases hl : jLookup fs k with
          | some w =>
            simp only [getPath, hl] at h
            simpa [hl] using h
          | none => simp [hl]
termination_by t ks2 ks => sizeOf t
decreasing_by all_goals
  (have h9 := jLookup_sizeOf hl
   simp only [JVal.obj.sizeOf_spec]
   omega)

theorem getPath_foldDel_preserve (keys : List String) : ∀ (t : JVal) (ks : List String),
    ks ≠ [] → getPath t ks = JVal.undef →
    getPath (keys.foldl (fun t k => delPath t (splitKeyPath k)) t) ks = JVal.undef := by
  induction keys with
  | nil =>
    intro t ks h0 h
    exact h
  | cons k0 rest ih =>
    intro t ks h0 h
    simp only [List.foldl_cons]
    exact ih _ ks h0 (getPath_delPath_preserve t _ ks h0 h)

theorem getPath_foldDel_mem : ∀ (keys : List String) (t : JVal) (k : String), k ∈ keys →
    getPath (keys.foldl (fun t k => delPath t (splitKeyPath k)) t) (splitKeyPath k) = JVal.undef
  | [], _, k, h => absurd h (List.not_mem_nil k)
  | k0 :: rest, t, k, h => by
      simp only [List.foldl_cons]
      by_cases hk : k ∈ rest
      · exact getPath_foldDel_mem rest _ k hk
      · rw [List.mem_cons] at h
        have hkk : k = k0 := by
          rcases h with h | h
          · exact h
          · exact absurd h hk
        subst hkk
        exact getPath_foldDel_preserve rest _ _ (splitKeyPath_ne_nil k)
          (getPath_delPath_self _ t (splitKeyPath_ne_nil k))

/--
The first half of the blacklist invariant: a freshly built snapshot never
holds a blacklisted key path in its global-scope settings subtree, whatever
the live config holds there.
-/
theorem getFilteredSettings_star_excludes (cfg : ConfigStore) (ubl : List String)
    (k : String) (hk : k ∈ REMOVE_KEYS ++ ubl) :
    getPath (jGetField (getFilteredSettings cfg ubl) "*") (splitKeyPath k) = JVal.undef := by
  simp only [getFilteredSettings, jGetField, jLookup, if_pos, Option.getD_some]
  exact getPath_foldDel_mem _ _ k hk

/-- Whether two key paths diverge: neither is a prefix of the other. -/
def pathsDiverge : List String → List String → Bool
  | a :: ks, b :: ks2 => if a = b then pathsDiverge ks ks2 else true
  | _, _ => false

/-- The evolution of the star subtree under the re-seeding fold of addFilteredSettings. -/
def reseedStar (cfg : ConfigStore) (keys : List String) (star : JVal) : JVal :=
  keys.foldl
    (fun t k =>
      let value := configGet cfg k
      if value ≠ JVal.undef then setPath t (splitKeyPath k) value else t) star

theorem canSetPath_emptyObj : ∀ ks : List String, ks ≠ [] →
    canSetPath (JVal.obj []) ks = true
  | [], h => absurd rfl h
  | [k], _ => by simp [canSetPath]
  | k :: k2 :: ks, _ => by
      simp only [canSetPath, jLookup]
      exact canSetPath_emptyObj (k2 :: ks) (by simp)

theorem jLookup_none_of_not_mem {fs : List (String × JVal)} {k : String}
    (h : k ∉ fs.map Prod.fst) : jLookup fs k = none := by
  induction fs with
  | nil => rfl
  | cons p fs ih =>
    obtain ⟨b, v⟩ := p
    simp only [List.map_cons, List.mem_cons, not_or] at h
    have hb : ¬ b = k := fun he => h.1 he.symm
    simp only [jLookup, if_neg hb]
    exact ih h.2

theorem jUpsert_map_fst_of_lookup_some {fs : List (String × JVal)} {k : String}
    {w v : JVal} (h : jLookup fs k = some w) :
    (jUpsert fs k v).map Prod.fst = fs.map Prod.fst := by
  induction fs with
  | nil => simp [jLookup] at h
  | cons p fs ih =>
    obtain ⟨b, u⟩ := p
    by_cases hb : b = k
    · simp [jUpsert, hb]
    · simp only [jLookup, if_neg hb] at h
      simp only [jUpsert, if_neg hb, List.map_cons]
      rw [ih h]

theorem setPath_obj_shape : ∀ (ks : List String) (fs : List (String × JVal)) (v : JVal),
    ks ≠ [] → ∃ gs, setPath (JVal.obj fs) ks v = JVal.obj gs
  | [], _, _, h => absurd rfl h
  | [k], fs, v, _ => ⟨jUpsert fs k v, by simp [setPath]⟩
  | k :: k2 :: ks, fs, v, _ => by
      simp only [setPath]
      cases hl : jLookup fs k with
      | some w =>
        simp only [hl]
        by_cases hw : w = JVal.null ∨ w = JVal.undef
        · rw [if_pos hw]
          exact ⟨_, rfl⟩
        · rw [if_neg hw]
          exact ⟨_, rfl⟩
      | none =>
        simp only [hl]
        exact ⟨_, rfl⟩

theorem getPath_setPath_self : ∀ (ks : List String) (t v : JVal), canSetPath t ks = true →
    getPath (setPath t ks v) ks = v
  | [], t, v, hc => by simp [canSetPath] at hc
  | [k], t, v, hc => by
      cases t with
      | obj fs => simp [setPath, getPath, jLookup_jUpsert_self]
      | undef => simp [canSetPath] at hc
      | null => simp [canSetPath] at hc
      | bool b => simp [canSetPath] at hc
      | num n => simp [canSetPath] at hc
      | str s => simp [canSetPath] at hc
      | arr xs => simp [canSetPath] at hc
  | k :: k2 :: ks, t, v, hc => by
      cases t with
      | obj fs =>
        simp only [setPath, canSetPath] at hc ⊢
        cases hl : jLookup fs k with
        | some w =>
          simp only [hl] at hc ⊢
          by_cases hw : w = JVal.null ∨ w = JVal.undef
          · rw [if_pos hw] at hc ⊢
            simp only [getPath, jLookup_jUpsert_self]
            exact getPath_setPath_self (k2 :: ks) (JVal.obj []) v
              (canSetPath_emptyObj _ (by simp))
          · rw [if_neg hw] at hc ⊢
            simp only [getPath, jLookup_mapAtKey_self, hl, Option.map_some']
            exact getPath_setPath_self (k2 :: ks) w v hc
        | none =>
          simp only [hl] at hc ⊢
          simp [getPath, jLookup_append, hl, jLookup]
          exact getPath_setPath_self (k2 :: ks) (JVal.obj []) v
            (canSetPath_emptyObj _ (by simp))
      | undef => simp [canSetPath] at hc
      | null => simp [canSetPath] at hc
      | bool b => simp [canSetPath] at hc
      | num n => simp [canSetPath] at hc
      | str s => simp [canSetPath] at hc
      | arr xs => simp [canSetPath] at hc

theorem canSetPath_setPath_self : ∀ (ks : List String) (t v : JVal), canSetPath t ks = true →
    canSetPath (setPath t ks v) ks = true
  | [], t, v, hc => by simp [canSetPath] at hc
  | [k], t, v, hc => by
      cases t with
      | obj fs => simp [setPath, canSetPath]
      | undef => simp [canSetPath] at hc
      | null => simp [canSetPath] at hc
      | bool b => simp [canSetPath] at hc
      | num n => simp [canSetPath] at hc
      | str s => simp [canSetPath] at hc
      | arr xs => simp [canSetPath] at hc
  | k :: k2 :: ks, t, v, hc => by
      cases t with
      | obj fs =>
        simp only [setPath, canSetPath] at hc ⊢
        cases hl : jLookup fs k with
        | some w =>
          simp only [hl] at hc ⊢
          by_cases hw : w = JVal.null ∨ w = JVal.undef
          · rw [if_pos hw] at hc ⊢
            obtain ⟨gs, hgs⟩ := setPath_obj_shape (k2 :: ks) ([] : List (String × JVal)) v (by simp)
            rw [hgs]
            simp [canSetPath, jLookup_jUpsert_self]
            rw [← hgs]
            exact canSetPath_setPath_self (k2 :: ks) (JVal.obj []) v
              (canSetPath_emptyObj _ (by simp))
          · rw [if_neg hw] at hc ⊢
            cases w with
            | obj ws =>
              obtain ⟨gs, hgs⟩ := setPath_obj_shape (k2 :: ks) ws v (by simp)
              simp [canSetPath, jLookup_mapAtKey_self, hl, hgs]
              rw [← hgs]
              exact canSetPath_setPath_self (k2 :: ks) (JVal.obj ws) v hc
            | undef => simp [canSetPath] at hc
            | null => simp [canSetPath] at hc
            | bool b => simp [canSetPath] at hc
            | num n => simp [canSetPath] at hc
            | str s => simp [canSetPath] at hc
            | arr xs => simp [canSetPath] at hc
        | none =>
          simp only [hl] at hc ⊢
          obtain ⟨gs, hgs⟩ := setPath_obj_shape (k2 :: ks) ([] : List (String × JVal)) v (by simp)
          rw [hgs]
          simp [canSetPath, jLookup_append, hl, jLookup]
          rw [← hgs]
          exact canSetPath_setPath_self (k2 :: ks) (JVal.obj []) v
            (canSetPath_emptyObj _ (by simp))
      | undef => simp [canSetPath] at hc
      | null => simp [canSetPath] at hc
      | bool b => simp [canSetPath] at hc
      | num n => simp [canSetPath] at hc
      | str s => simp [canSetPath] at hc
      | arr xs => simp [canSetPath] at hc

theorem getPath_setPath_divergent : ∀ (ks ks2 : List String) (t v : JVal),
    pathsDiverge ks ks2 = true → getPath (setPath t ks2 v) ks = getPath t ks
  | [], ks2, t, v, hd => by simp [pathsDiverge] at hd
  | a :: ks1, [], t, v, hd => by simp [pathsDiverge] at hd
  | a :: ks1, b :: ks2', t, v, hd => by
      cases t with
      | obj fs =>
        by_cases hab : a = b
        · subst hab
          simp only [pathsDiverge, if_pos rfl] at hd
          cases ks1 with
          | nil => simp [pathsDiverge] at hd
          | cons a2 ks1' =>
            cases ks2' with
            | nil => simp [pathsDiverge] at hd
            | cons b2 ks2'' =>
              simp only [setPath]
              cases hl : jLookup fs a with
              | some w =>
                simp only [hl]
                by_cases hw : w = JVal.null ∨ w = JVal.undef
                · rw [if_pos hw]
                  simp only [getPath, jLookup_jUpsert_self, hl]
                  rw [getPath_setPath_divergent (a2 :: ks1') (b2 :: ks2'') (JVal.obj []) v hd]
                  rcases hw with hw | hw <;> subst hw <;> simp [getPath, jLookup]
                · rw [if_neg hw]
                  simp only [getPath, jLookup_mapAtKey_self, hl, Option.map_some']
                  exact getPath_setPath_divergent (a2 :: ks1') (b2 :: ks2'') w v hd
              | none =>
                simp only [hl]
                simp only [getPath, jLookup_append, hl]
                simp only [jLookup, if_pos]
                rw [getPath_setPath_divergent (a2 :: ks1') (b2 :: ks2'') (JVal.obj []) v hd]
                simp [getPath, jLookup]
        · cases ks2' with
          | nil =>
            simp only [setPath, getPath, jLookup_jUpsert_other hab]
          | cons b2 ks2'' =>
            simp only [setPath]
            cases hl : jLookup fs b with
            | some w =>
              simp only [hl]
              by_cases hw : w = JVal.null ∨ w = JVal.undef
              · rw [if_pos hw]
                simp only [getPath, jLookup_jUpsert_other hab]
              · rw [if_neg hw]
                simp only [getPath, jLookup_mapAtKey_other hab]
            | none =>
              simp only [hl]
              simp only [getPath, jLookup_append]
              cases ha : jLookup fs a with
              | some u => simp [ha]
              | none =>
                simp only [ha, jLookup]
                rw [if_neg (fun he => hab he.symm)]
      | undef => simp [setPath]
      | null => simp [setPath]
      | bool b0 => simp [setPath]
      | num n => simp [setPath]
      | str s => simp [setPath]
      | arr xs => simp [setPath]

theorem canSetPath_setPath_divergent : ∀ (ks ks2 : List String) (t v : JVal),
    pathsDiverge ks ks2 = true → canSetPath (setPath t ks2 v) ks = canSetPath t ks
  | [], ks2, t, v, hd => by simp [pathsDiverge] at hd
  | a :: ks1, [], t, v, hd => by simp [pathsDiverge] at hd
  | a :: ks1, b :: ks2', t, v, hd => by
      cases t with
      | obj fs =>
        by_cases hab : a = b
        · subst hab
          simp only [pathsDiverge, if_pos rfl] at hd
          cases ks1 with
          | nil => simp [pathsDiverge] at hd
          | cons a2 ks1' =>
            cases ks2' with
            | nil => simp [pathsDiverge] at hd
            | cons b2 ks2'' =>
              simp only [setPath]
              cases hl : jLookup fs a with
              | some w =>
                simp only [hl]
                by_cases hw : w = JVal.null ∨ w = JVal.undef
                · rw [if_pos hw]
                  obtain ⟨gs, hgs⟩ :=
                    setPath_obj_shape (b2 :: ks2'') ([] : List (String × JVal)) v (by simp)
                  rw [hgs]
                  simp only [canSetPath, jLookup_jUpsert_self, hl]
                  have hno : ¬ (JVal.obj gs = JVal.null ∨ JVal.obj gs = JVal.undef) := by simp
                  rw [if_neg hno, if_pos hw, ← hgs]
                  rw [canSetPath_setPath_divergent (a2 :: ks1') (b2 :: ks2'') (JVal.obj []) v hd]
                · rw [if_neg hw]
                  cases w with
                  | obj ws =>
                    obtain ⟨gs, hgs⟩ := setPath_obj_shape (b2 :: ks2'') ws v (by simp)
                    simp only [canSetPath, jLookup_mapAtKey_self, hl, Option.map_some', hgs]
                    have hno : ¬ (JVal.obj gs = JVal.null ∨ JVal.obj gs = JVal.undef) := by simp
                    rw [if_neg hno, if_neg hw, ← hgs]
                    exact canSetPath_setPath_divergent (a2 :: ks1') (b2 :: ks2'') (JVal.obj ws) v hd
                  | undef => exact absurd (Or.inr rfl) hw
                  | null => exact absurd (Or.inl rfl) hw
                  | bool b0 =>
                    simp only [canSetPath, jLookup_mapAtKey_self, hl, Option.map_some', setPath]
                  | num n =>
                    simp only [canSetPath, jLookup_mapAtKey_self, hl, Option.map_some', setPath]
                  | str s =>
                    simp only [canSetPath, jLookup_mapAtKey_self, hl, Option.map_some', setPath]
                  | arr xs =>
                    simp only [canSetPath, jLookup_mapAtKey_self, hl, Option.map_some', setPath]
              | none =>
                simp only [hl]
                obtain ⟨gs, hgs⟩ :=
                  setPath_obj_shape (b2 :: ks2'') ([] : List (String × JVal)) v (by simp)
                rw [hgs]
                simp only [canSetPath, jLookup_append, hl, jLookup, if_pos]
                have hno : ¬ (JVal.obj gs = JVal.null ∨ JVal.obj gs = JVal.undef) := by simp
                rw [if_neg hno, ← hgs]
                rw [canSetPath_setPath_divergent (a2 :: ks1') (b2 :: ks2'') (JVal.obj []) v hd]
        · cases ks2' with
          | nil =>
            cases ks1 with
            | nil => simp [setPath, canSetPath, jLookup_jUpsert_other hab]
            | cons a2 ks1' =>
              simp only [setPath, canSetPath, jLookup_jUpsert_other hab]
          | cons b2 ks2'' =>
            simp only [setPath]
            cases hl : jLookup fs b with
            | some w =>
              simp only [hl]
              by_cases hw : w = JVal.null ∨ w = JVal.undef
              · rw [if_pos hw]
                cases ks1 with
                | nil => simp [canSetPath, jLookup_jUpsert_other hab]
                | cons a2 ks1' => simp only [canSetPath, jLookup_jUpsert_other hab]
              · rw [if_neg hw]
                cases ks1 with
                | nil => simp [canSetPath, jLookup_mapAtKey_other hab]
                | cons a2 ks1' => simp only [canSetPath, jLookup_mapAtKey_other hab]
            | none =>
              simp only [hl]
              cases ks1 with
              | nil =>
                simp [canSetPath]
              | cons a2 ks1' =>
                simp only [canSetPath, jLookup_append]
                cases ha : jLookup fs a with
                | some u => simp [ha]
                | none =>
                  simp only [ha, jLookup]
                  rw [if_neg (fun he => hab he.symm)]
      | undef => simp [setPath]
      | null => simp [setPath]
      | bool b0 => simp [setPath]
      | num n => simp [setPath]
      | str s => simp [setPath]
      | arr xs => simp [setPath]

theorem reseedStar_preserve (cfg : ConfigStore) : ∀ (keys : List String) (star : JVal)
    (k : String),
    (∀ k2 ∈ keys, pathsDiverge (splitKeyPath k) (splitKeyPath k2) = true) →
    getPath (reseedStar cfg keys star) (splitKeyPath k) = getPath star (splitKeyPath k) := by
  intro keys
  induction keys with
  | nil =>
    intro star k h
    rfl
  | cons k0 keys ih =>
    intro star k h
    have h0 := h k0 (List.mem_cons_self _ _)
    simp only [reseedStar, List.foldl_cons]
    have ih2 := ih (if configGet cfg k0 ≠ JVal.undef
      then setPath star (splitKeyPath k0) (configGet cfg k0) else star) k
      (fun k2 h2 => h k2 (List.mem_cons_of_mem _ h2))
    simp only [reseedStar] at ih2
    rw [ih2]
    by_cases hl0 : configGet cfg k0 = JVal.undef
    · rw [if_neg (by simpa using hl0)]
    · rw [if_pos (by simpa using hl0)]
      exact getPath_setPath_divergent _ _ star _ h0

theorem reseedStar_get (cfg : ConfigStore) : ∀ (keys : List String) (star : JVal)
    (k : String),
    k ∈ keys → configGet cfg k ≠ JVal.undef →
    (∀ k2 ∈ keys, k2 ≠ k → pathsDiverge (splitKeyPath k) (splitKeyPath k2) = true) →
    canSetPath star (splitKeyPath k) = true →
    getPath (reseedStar cfg keys star) (splitKeyPath k) = configGet cfg k := by
  intro keys
  induction keys with
  | nil =>
    intro star k hmem
    cases hmem
  | cons k0 keys ih =>
    intro star k hmem hlive hdiv hcan
    simp only [reseedStar, List.foldl_cons]
    by_cases hk0 : k0 = k
    · subst hk0
      have hstep : (if configGet cfg k0 ≠ JVal.undef
          then setPath star (splitKeyPath k0) (configGet cfg k0) else star) =
          setPath star (splitKeyPath k0) (configGet cfg k0) := by
        rw [if_pos hlive]
      by_cases hkin : k0 ∈ keys
      · have ih2 := ih (setPath star (splitKeyPath k0) (configGet cfg k0)) k0 hkin hlive
          (fun k2 h2 hne => hdiv k2 (List.mem_cons_of_mem _ h2) hne)
          (canSetPath_setPath_self _ star _ hcan)
        simp only [reseedStar] at ih2
        rw [hstep]
        exact ih2
      · have hdivall : ∀ k2 ∈ keys, pathsDiverge (splitKeyPath k0) (splitKeyPath k2) = true := by
          intro k2 h2
          have hne : k2 ≠ k0 := fun he => hkin (he ▸ h2)
          exact hdiv k2 (List.mem_cons_of_mem _ h2) hne
        have hp := reseedStar_preserve cfg keys
          (setPath star (splitKeyPath k0) (configGet cfg k0)) k0 hdivall
        simp only [reseedStar] at hp
        rw [hstep, hp]
        exact getPath_setPath_self _ star _ hcan
    · have hkin : k ∈ keys := by
        rcases List.mem_cons.mp hmem with h | h
        · exact absurd h.symm hk0
        · exact h
      have hdiv0 : pathsDiverge (splitKeyPath k) (splitKeyPath k0) = true :=
        hdiv k0 (List.mem_cons_self _ _) hk0
      have hcan2 : canSetPath (if configGet cfg k0 ≠ JVal.undef
          then setPath star (splitKeyPath k0) (configGet cfg k0) else star)
          (splitKeyPath k) = true := by
        by_cases hl0 : configGet cfg k0 = JVal.undef
        · rw [if_neg (by simpa using hl0)]
          exact hcan
        · rw [if_pos (by simpa using hl0)]
          rw [canSetPath_setPath_divergent _ _ star _ hdiv0]
          exact hcan
      have ih2 := ih _ k hkin hlive
        (fun k2 h2 hne => hdiv k2 (List.mem_cons_of_mem _ h2) hne) hcan2
      simp only [reseedStar] at ih2
      exact ih2

theorem reseedStar_cons (cfg : ConfigStore) (k0 : String) (keys : List String) (star : JVal) :
    reseedStar cfg (k0 :: keys) star =
      reseedStar cfg keys
        (if configGet cfg k0 ≠ JVal.undef
         then setPath star (splitKeyPath k0) (configGet cfg k0) else star) := rfl

theorem jSetField_obj (fs : List (String × JVal)) (key : String) (w : JVal) :
    jSetField (JVal.obj fs) key w = JVal.obj (jUpsert fs key w) := rfl

theorem jGetField_obj_star {fs : List (String × JVal)} {star : JVal}
    (hl : jLookup fs "*" = some star) : jGetField (JVal.obj fs) "*" = star := by
  simp [jGetField, hl]

theorem addFilteredSettings_inv (cfg : ConfigStore) : ∀ (keys : List String)
    (fs : List (String × JVal)) (star : JVal), jLookup fs "*" = some star →
    ∃ fs2, keys.foldl
        (fun s k =>
          let value := configGet cfg k
          if value ≠ JVal.undef then
            jSetField s "*" (setPath (jGetField s "*") (splitKeyPath k) value)
          else s) (JVal.obj fs) = JVal.obj fs2 ∧
      jLookup fs2 "*" = some (reseedStar cfg keys star) ∧
      fs2.map Prod.fst = fs.map Prod.fst := by
  intro keys
  induction keys with
  | nil =>
    intro fs star hl
    exact ⟨fs, rfl, by simpa [reseedStar] using hl, rfl⟩
  | cons k0 keys ih =>
    intro fs star hl
    rw [reseedStar_cons]
    by_cases hl0 : configGet cfg k0 = JVal.undef
    · obtain ⟨fs2, h1, h2, h4⟩ := ih fs star hl
      refine ⟨fs2, ?_, ?_, h4⟩
      · simp only [List.foldl_cons]
        rw [if_neg (by simpa using hl0)]
        exact h1
      · rw [if_neg (by simpa using hl0)]
        exact h2
    · have hstar := jGetField_obj_star hl
      obtain ⟨fs2, h1, h2, h4⟩ := ih (jUpsert fs "*"
        (setPath star (splitKeyPath k0) (configGet cfg k0)))
        (setPath star (splitKeyPath k0) (configGet cfg k0)) (jLookup_jUpsert_self _ _ _)
      refine ⟨fs2, ?_, ?_, ?_⟩
      · simp only [List.foldl_cons]
        rw [if_pos (by simpa using hl0), hstar, jSetField_obj]
        exact h1
      · rw [if_pos (by simpa using hl0)]
        exact h2
      · rw [h4, jUpsert_map_fst_of_lookup_some hl]

theorem foldl_configSetAll_global : ∀ (fields : List (String × JVal)) (cfg : ConfigStore),
    (fields.map Prod.fst).Nodup →
    (fields.foldl (fun c p => configSetAll c p.1 p.2) cfg).global =
      (match jLookup fields "*" with
       | some t => t
       | none => cfg.global) := by
  intro fields
  induction fields with
  | nil =>
    intro cfg h
    rfl
  | cons p rest ih =>
    intro cfg hnd
    obtain ⟨s, t⟩ := p
    simp only [List.map_cons, List.nodup_cons] at hnd
    simp only [List.foldl_cons]
    by_cases hs : s = "*"
    · subst hs
      have hnone : jLookup rest "*" = none := jLookup_none_of_not_mem hnd.1
      rw [ih _ hnd.2, hnone]
      simp [configSetAll, jLookup]
    · rw [ih _ hnd.2]
      simp only [jLookup, if_neg hs]
      have hg : (configSetAll cfg s t).global = cfg.global := by
        simp [configSetAll, if_neg hs]
      rw [hg]

/--
The amended second half of the blacklist invariant: applying a restored
settings tree leaves the live value of a blacklisted key unchanged, provided
the key has a defined live value, the inbound star subtree can actually store
the key path (no non-object blocks the walk), the blacklisted key paths are
pairwise non-prefix, and the inbound tree has no duplicate top-level scopes.
-/
theorem updateSettings_reseeds (cfg : ConfigStore) (ubl : List String)
    (settings : JVal) (k : String)
    (hmem : k ∈ REMOVE_KEYS ++ ubl)
    (hlive : configGet cfg k ≠ JVal.undef)
    (hdiv : ∀ k2 ∈ REMOVE_KEYS ++ ubl, k2 ≠ k →
      pathsDiverge (splitKeyPath k) (splitKeyPath k2) = true)
    (hcan : canSetPath (jGetField (wrapStar settings) "*") (splitKeyPath k) = true)
    (hnd : ((jEnumFields (wrapStar settings)).map Prod.fst).Nodup) :
    configGet (updateSettings cfg ubl settings) k = configGet cfg k := by
  have hobj : ∃ fs star, wrapStar settings = JVal.obj fs ∧ jLookup fs "*" = some star := by
    by_cases hh : jHasKey settings "*" = true
    · cases settings with
      | obj fs =>
        simp only [jHasKey, Option.isSome_iff_exists] at hh
        obtain ⟨star, hstar⟩ := hh
        exact ⟨fs, star, by simp [wrapStar, jHasKey, hstar], hstar⟩
      | undef => simp [jHasKey] at hh
      | null => simp [jHasKey] at hh
      | bool b => simp [jHasKey] at hh
      | num n => simp [jHasKey] at hh
      | str s => simp [jHasKey] at hh
      | arr xs => simp [jHasKey] at hh
    · refine ⟨[("*", settings)], settings, ?_, by simp [jLookup]⟩
      simp only [wrapStar]
      rw [if_neg hh]
  obtain ⟨fs, star, hwrap, hstar⟩ := hobj
  have hcan2 : canSetPath star (splitKeyPath k) = true := by
    rw [hwrap, jGetField_obj_star hstar] at hcan
    exact hcan
  obtain ⟨fs2, h1, h2, h4⟩ :=
    addFilteredSettings_inv cfg (REMOVE_KEYS ++ ubl) fs star hstar
  have hsettings2 : addFilteredSettings cfg ubl (wrapStar settings) = JVal.obj fs2 := by
    rw [hwrap]
    exact h1
  have hnd2 : (fs2.map Prod.fst).Nodup := by
    rw [h4]
    rw [hwrap] at hnd
    simpa [jEnumFields] using hnd
  have hglobal : (updateSettings cfg ubl settings).global =
      reseedStar cfg (REMOVE_KEYS ++ ubl) star := by
    simp only [updateSettings]
    rw [hsettings2]
    simp only [jEnumFields]
    rw [foldl_configSetAll_global fs2 cfg hnd2, h2]
  simp only [configGet, hglobal]
  exact reseedStar_get cfg (REMOVE_KEYS ++ ubl) star k hmem hlive hdiv hcan2

/--
A remote blob as the classifier sees it: the raw text, paired with the result
JSON.parse (a host primitive, not part of this repository) would give on that
text.  Modelled from the spec: parse failure carries the thrown message.
-/
structure Blob where
  content : String
  parsed : Except String JVal

/--
The configuration profile and host collaborators the blob classifier reads:
the category enable flags and lists (atom.config.get calls of lines 546-620),
the bundled-package test, the minimatch glob matcher of the minimatch
dependency (modelled as an opaque matcher parameter), and the well-known
paths.
-/
structure ClassifierEnv where
  syncSettings : Bool
  syncPackages : Bool
  syncThemes : Bool
  syncKeymap : Bool
  syncStyles : Bool
  syncInit : Bool
  syncSnippets : Bool
  onlySyncCommunityPackages : Bool
  extraFiles : List String
  extraFilesGlob : List String
  ignoreFilesGlob : List String
  isBundledPackage : String → Bool
  matchGlob : String → String → Bool
  configDirPath : String
  userKeymapPath : String
  userStyleSheetPath : String

/-- The backslash-to-slash normalisation of line 607. -/
def backslashToSlash (s : String) : String :=
  s.map (fun c => if c = '\\' then '/' else c)

/-- Modelled from the spec: path.resolve against the config directory. -/
def resolvePath (dir fileName : String) : String :=
  dir ++ "/" ++ fileName

mutual
/-- JavaScript string coercion of a value used as a property key. -/
def jToPropKey : JVal → String
  | JVal.undef => "undefined"
  | JVal.null => "null"
  | JVal.bool b => if b then "true" else "false"
  | JVal.num n => toString n
  | JVal.str s => s
  | JVal.arr xs => jJoinKeys xs
  | JVal.obj _ => "[object Object]"

/-- Array stringification: comma join with nullish entries rendered empty. -/
def jJoinKeys : List JVal → String
  | [] => ""
  | x :: xs =>
      (match x with
       | JVal.undef => ""
       | JVal.null => ""
       | v => jToPropKey v) ++ (if xs.isEmpty then "" else ",") ++ jJoinKeys xs
end

/--
Source: fromLegacyPackages (lines 521-531).  A legacy array of descriptors
with a name field is folded into a mapping keyed by name; destructuring a
nullish array element throws, which the caller catches as a parse error.
Any non-array value passes through unchanged.
-/
def fromLegacyPackages : JVal → Except String JVal
  | JVal.arr xs => do
      let fields ← xs.foldlM
        (fun (acc : List (String × JVal)) pkg => do
          if pkg = JVal.null ∨ pkg = JVal.undef then
            throw "TypeError: cannot destructure a nullish package entry"
          let key := jToPropKey (jGetField pkg "name")
          let rest := JVal.obj ((jEnumFields pkg).filter (fun p => p.1 ≠ "name"))
          pure (jUpsert acc key rest)) []
      pure (JVal.obj fields)
  | v => Except.ok v

/-- Source: filterObject (lines 316-323), keeping the entries a test accepts. -/
def filterObject (v : JVal) (pred : String × JVal → Bool) : JVal :=
  JVal.obj ((jEnumFields v).filter pred)

/-- The error notification text of line 630, with the file name inside. -/
def parseErrorNotif (fileName err : String) : String :=
  "Sync-Settings: Error parsing the file " ++ fileName ++ ". (" ++ err ++ ")"

/-- The accumulator of the classifier loop: settings, packages, file entries. -/
structure ClassifyAcc where
  settings : JVal
  packages : JVal
  fileAcc : List (String × JVal)

/--
Source: the switch body of getBackupData (lines 541-632) for one named blob.
The try block aborts with a notification when JSON.parse (or the legacy
destructuring) throws; every other branch extends the accumulator.
-/
def classifyBlob (env : ClassifierEnv) (fileName : String) (blob : Blob)
    (acc : ClassifyAcc) : Except String ClassifyAcc :=
  if fileName = "settings.json" then
    if env.syncSettings then
      match blob.parsed with
      | Except.ok v => Except.ok { acc with settings := v }
      | Except.error e => Except.error (parseErrorNotif fileName e)
    else Except.ok acc
  else if fileName = "packages.json" then
    if env.syncPackages || env.syncThemes then
      match blob.parsed with
      | Except.error e => Except.error (parseErrorNotif fileName e)
      | Except.ok v =>
        match fromLegacyPackages v with
        | Except.error e => Except.error (parseErrorNotif fileName e)
        | Except.ok pkgs =>
          let pkgs := if !env.syncPackages then
              filterObject pkgs (fun p => jTruthy (jGetField p.2 "theme")) else pkgs
          let pkgs := if !env.syncThemes then
              filterObject pkgs (fun p => !jTruthy (jGetField p.2 "theme")) else pkgs
          let pkgs := if env.onlySyncCommunityPackages then
              filterObject pkgs (fun p => !env.isBundledPackage p.1) else pkgs
          Except.ok { acc with packages := pkgs }
    else Except.ok acc
  else if fileName = "keymap.cson" ∨ fileName = "keymap.json" then
    if env.syncKeymap then
      let fileObj := JVal.obj [("path", JVal.str env.userKeymapPath),
        ("content", JVal.str blob.content)]
      Except.ok { acc with fileAcc := jUpsert acc.fileAcc fileName fileObj }
    else Except.ok acc
  else if fileName = "styles.css" ∨ fileName = "styles.less" then
    if env.syncStyles then
      let fileObj := JVal.obj [("path", JVal.str env.userStyleSheetPath),
        ("content", JVal.str blob.content)]
      Except.ok { acc with fileAcc := jUpsert acc.fileAcc fileName fileObj }
    else Except.ok acc
  else if fileName = "init.coffee" ∨ fileName = "init.js" then
    if env.syncInit then
      let fileObj := JVal.obj [("path", JVal.str (resolvePath env.configDirPath fileName)),
        ("content", JVal.str blob.content)]
      Except.ok { acc with fileAcc := jUpsert acc.fileAcc fileName fileObj }
    else Except.ok acc
  else if fileName = "snippets.cson" ∨ fileName = "snippets.json" then
    if env.syncSnippets then
      let fileObj := JVal.obj [("path", JVal.str (resolvePath env.configDirPath fileName)),
        ("content", JVal.str blob.content)]
      Except.ok { acc with fileAcc := jUpsert acc.fileAcc fileName fileObj }
    else Except.ok acc
  else
    let fileName2 := backslashToSlash fileName
    let filePath := resolvePath env.configDirPath fileName2
    let extraFiles2 := env.extraFiles.map backslashToSlash
    let fileObj := JVal.obj [("path", JVal.str filePath),
      ("content", JVal.str blob.content)]
    if fileName2 ∈ extraFiles2 then
      Except.ok { acc with fileAcc := jUpsert acc.fileAcc fileName2 fileObj }
    else if (env.extraFilesGlob.any (fun g => env.matchGlob fileName2 g)) &&
        !(env.ignoreFilesGlob.any (fun g => env.matchGlob fileName2 g)) then
      Except.ok { acc with fileAcc := jUpsert acc.fileAcc fileName2 fileObj }
    else Except.ok acc

/-- The iteration of getBackupData over the named blobs, aborting on a throw. -/
def getBackupDataLoop (env : ClassifierEnv) :
    List (String × Blob) → ClassifyAcc → Except String ClassifyAcc
  | [], acc => Except.ok acc
  | (fileName, blob) :: rest, acc =>
      match classifyBlob env fileName blob acc with
      | Except.error e => Except.error e
      | Except.ok acc2 => getBackupDataLoop env rest acc2

/--
Source: getBackupData (sync-settings.js lines 533-642).  Returns the parsed
snapshot and the list of emitted error notifications: a parse failure aborts
the whole classification (the JavaScript returns undefined, here none) after
emitting exactly the one notification the catch block produces.  On success
the collected files are sorted (sortObject with the default locale
comparator) or set to null when empty.
-/
def getBackupData (env : ClassifierEnv) (files : List (String × Blob)) :
    Option Snapshot × List String :=
  match getBackupDataLoop env files
    { settings := JVal.null, packages := JVal.null, fileAcc := [] } with
  | Except.error notif => (none, [notif])
  | Except.ok acc =>
      (some { settings := acc.settings, packages := acc.packages,
              files := if acc.fileAcc.length > 0 then JVal.obj (sortObject acc.fileAcc)
                       else JVal.null }, [])

/--
Which blobs make the classifier throw: malformed JSON in an enabled settings
or packages slot, or a legacy packages array with a nullish entry.
-/
def blobThrowError (env : ClassifierEnv) (fileName : String) (b : Blob) : Option String :=
  if fileName = "settings.json" then
    if env.syncSettings then
      match b.parsed with
      | Except.error e => some e
      | Except.ok _ => none
    else none
  else if fileName = "packages.json" then
    if env.syncPackages || env.syncThemes then
      match b.parsed with
      | Except.error e => some e
      | Except.ok v =>
        match fromLegacyPackages v with
        | Except.error e => some e
        | Except.ok _ => none
    else none
  else none

theorem classifyBlob_ok (env : ClassifierEnv) (fn : String) (b : Blob) (acc : ClassifyAcc)
    (h : blobThrowError env fn b = none) :
    ∃ acc2, classifyBlob env fn b acc = Except.ok acc2 := by
  unfold classifyBlob
  unfold blobThrowError at h
  by_cases h1 : fn = "settings.json"
  · rw [if_pos h1]
    rw [if_pos h1] at h
    by_cases h2 : env.syncSettings = true
    · rw [if_pos h2]
      rw [if_pos h2] at h
      cases hp : b.parsed with
      | ok v => exact ⟨_, rfl⟩
      | error e =>
        rw [hp] at h
        cases h
    · rw [if_neg h2]
      exact ⟨_, rfl⟩
  · rw [if_neg h1]
    rw [if_neg h1] at h
    by_cases h2 : fn = "packages.json"
    · rw [if_pos h2]
      rw [if_pos h2] at h
      by_cases h3 : (env.syncPackages || env.syncThemes) = true
      · rw [if_pos h3]
        rw [if_pos h3] at h
        cases hp : b.parsed with
        | error e =>
          rw [hp] at h
          cases h
        | ok v =>
          rw [hp] at h
          dsimp only at h ⊢
          cases hf : fromLegacyPackages v with
          | error e =>
            rw [hf] at h
            dsimp only at h
            cases h
          | ok pkgs =>
            exact ⟨_, rfl⟩
      · rw [if_neg h3]
        exact ⟨_, rfl⟩
    · rw [if_neg h2]
      dsimp only
      split_ifs <;> exact ⟨_, rfl⟩

theorem classifyBlob_error (env : ClassifierEnv) (fn : String) (b : Blob) (acc : ClassifyAcc)
    {e : String} (h : blobThrowError env fn b = some e) :
    classifyBlob env fn b acc = Except.error (parseErrorNotif fn e) := by
  unfold classifyBlob
  unfold blobThrowError at h
  by_cases h1 : fn = "settings.json"
  · rw [if_pos h1]
    rw [if_pos h1] at h
    by_cases h2 : env.syncSettings = true
    · rw [if_pos h2]
      rw [if_pos h2] at h
      cases hp : b.parsed with
      | ok v =>
        rw [hp] at h
        cases h
      | error e2 =>
        rw [hp] at h
        cases h
        rfl
    · rw [if_neg h2] at h
      cases h
  · rw [if_neg h1]
    rw [if_neg h1] at h
    by_cases h2 : fn = "packages.json"
    · rw [if_pos h2]
      rw [if_pos h2] at h
      by_cases h3 : (env.syncPackages || env.syncThemes) = true
      · rw [if_pos h3]
        rw [if_pos h3] at h
        cases hp : b.parsed with
        | error e2 =>
          rw [hp] at h
          dsimp only at h
          cases h
          rfl
        | ok v =>
          rw [hp] at h
          dsimp only at h ⊢
          cases hf : fromLegacyPackages v with
          | error e2 =>
            rw [hf] at h
            dsimp only at h
            cases h
            rfl
          | ok pkgs =>
            rw [hf] at h
            dsimp only at h
            cases h
      · rw [if_neg h3] at h
        cases h
    · rw [if_neg h2] at h
      cases h

theorem getBackupDataLoop_error (env : ClassifierEnv) : ∀ (files : List (String × Blob))
    (acc : ClassifyAcc),
    (∃ p ∈ files, (blobThrowError env p.1 p.2).isSome) →
    ∃ fn b e, (fn, b) ∈ files ∧ blobThrowError env fn b = some e ∧
      getBackupDataLoop env files acc = Except.error (parseErrorNotif fn e) := by
  intro files
  induction files with
  | nil =>
    intro acc h
    obtain ⟨p, hp, _⟩ := h
    cases hp
  | cons q rest ih =>
    intro acc h
    obtain ⟨fn0, b0⟩ := q
    cases hb : blobThrowError env fn0 b0 with
    | some e =>
      have hc := classifyBlob_error env fn0 b0 acc hb
      refine ⟨fn0, b0, e, List.mem_cons_self _ _, hb, ?_⟩
      simp only [getBackupDataLoop, hc]
    | none =>
      obtain ⟨acc2, hacc2⟩ := classifyBlob_ok env fn0 b0 acc hb
      have hrest : ∃ p ∈ rest, (blobThrowError env p.1 p.2).isSome := by
        obtain ⟨p, hp, hps⟩ := h
        rcases List.mem_cons.mp hp with hp | hp
        · subst hp
          rw [hb] at hps
          cases hps
        · exact ⟨p, hp, hps⟩
      obtain ⟨fn, b, e, hmem, hsome, hloop⟩ := ih acc2 hrest
      refine ⟨fn, b, e, List.mem_cons_of_mem _ hmem, hsome, ?_⟩
      simp only [getBackupDataLoop, hacc2]
      exact hloop

/--
The classifier aborts on a malformed enabled blob: no snapshot at all, and
exactly one error notification, which carries the offending blob name.
-/
theorem getBackupData_aborts (env : ClassifierEnv) (files : List (String × Blob))
    (h : ∃ p ∈ files, (blobThrowError env p.1 p.2).isSome) :
    ∃ fn b e, (fn, b) ∈ files ∧ blobThrowError env fn b = some e ∧
      getBackupData env files = (none, [parseErrorNotif fn e]) := by
  obtain ⟨fn, b, e, hmem, hsome, hloop⟩ := getBackupDataLoop_error env files
    { settings := JVal.null, packages := JVal.null, fileAcc := [] } h
  refine ⟨fn, b, e, hmem, hsome, ?_⟩
  simp only [getBackupData, hloop]

/-- The aggregate completion report of lines 806-815 and 727-736. -/
inductive BatchReport : Type where
  | success (count : Nat) : BatchReport
  | warning (failedSorted : List String) : BatchReport
deriving Repr, DecidableEq

/--
The observable state of one batch run of installMissingPackages or
removeObsoletePackages: the shared pending queue (missingPackages or
removePackages), the keys of the in-progress notifications object, the
succeeded and failed accumulators, and the aggregate reports emitted so far.
-/
structure BatchState where
  pending : List String
  working : List String
  succeeded : List String
  failed : List String
  reports : List BatchReport
deriving Repr, DecidableEq

/-- JavaScript Array.sort default string ordering (plain lexicographic). -/
def sortStrings (l : List String) : List String :=
  List.insertionSort (fun a b => strLe a b = true) l

/-- The aggregate report lines 808-814 build from the final accumulators. -/
def mkBatchReport (s : BatchState) : BatchReport :=
  if s.failed.isEmpty then BatchReport.success s.succeeded.length
  else BatchReport.warning (sortStrings s.failed)

/--
Source: the synchronous prefix of installNextPackage (lines 786-816) and
removeNextPackage (lines 708-737) up to its first await: pop the next pending
item and register its in-progress notification, or, with an empty queue,
emit the aggregate report when no notification remains and return otherwise.
JavaScript runs this prefix atomically (single-threaded between awaits).
-/
def launchWorker (s : BatchState) : BatchState :=
  match s.pending with
  | p :: ps => { s with pending := ps, working := s.working ++ [p] }
  | [] =>
      if s.working.isEmpty then { s with reports := s.reports ++ [mkBatchReport s] }
      else s

/--
Source: the atomic continuation that runs when one awaited install or
uninstall resolves (lines 794-805 / 715-726 followed by the recursive call):
record the outcome, dismiss and delete the in-progress notification, and
immediately run the next synchronous worker prefix.
-/
def finishStep (s : BatchState) (name : String) (ok : Bool) : BatchState :=
  launchWorker
    { s with
      working := s.working.erase name,
      succeeded := if ok then s.succeeded ++ [name] else s.succeeded,
      failed := if ok then s.failed else s.failed ++ [name] }

/-- The launch loop (lines 817-823): n synchronous worker starts in a row. -/
def launchN : Nat → BatchState → BatchState
  | 0, s => s
  | n + 1, s => launchN n (launchWorker s)

/--
Source: lines 817-823 (and 738-744): the initial state of a batch over the
given items, after the for loop has started min(items, 8) workers, each of
which synchronously claimed one pending item.
-/
def initBatch (items : List String) : BatchState :=
  launchN (min items.length 8)
    { pending := items, working := [], succeeded := [], failed := [], reports := [] }

/--
One scheduler step of the batch: some in-flight item resolves (successfully
or not) and its worker runs the atomic continuation.
-/
inductive BatchStep : BatchState → BatchState → Prop where
  | finish (s : BatchState) (name : String) (ok : Bool) (hm : name ∈ s.working) :
      BatchStep s (finishStep s name ok)

/-- The states a batch over the given items can reach under any scheduling. -/
def BatchReach (items : List String) (s : BatchState) : Prop :=
  Relation.ReflTransGen BatchStep (initBatch items) s

theorem launchN_spec : ∀ (n : Nat) (items w su fa : List String) (re : List BatchReport),
    n ≤ items.length →
    launchN n { pending := items, working := w, succeeded := su, failed := fa, reports := re } =
      { pending := items.drop n, working := w ++ items.take n, succeeded := su,
        failed := fa, reports := re } := by
  intro n
  induction n with
  | zero =>
    intro items w su fa re h
    simp [launchN]
  | succ n ih =>
    intro items w su fa re h
    cases items with
    | nil => simp at h
    | cons p ps =>
      simp only [launchN, launchWorker]
      rw [ih ps (w ++ [p]) su fa re (by simpa using h)]
      simp [List.append_assoc]

theorem initBatch_spec (items : List String) :
    initBatch items =
      { pending := items.drop (min items.length 8),
        working := items.take (min items.length 8),
        succeeded := [], failed := [], reports := [] } := by
  rw [initBatch, launchN_spec _ items [] [] [] [] (Nat.min_le_left _ _)]
  simp

/--
The batch invariant: the in-flight set never exceeds the concurrency cap,
the four lists together hold exactly the original items (so nothing is lost
or duplicated), and either no aggregate report has been emitted and work
remains, or the batch is complete and exactly the one correct aggregate
report has been emitted.
-/
def BatchInv (items : List String) (s : BatchState) : Prop :=
  s.working.length ≤ min items.length 8 ∧
  (↑s.succeeded + ↑s.failed + ↑s.working + ↑s.pending : Multiset String) = ↑items ∧
  ((s.reports = [] ∧ (s.pending ≠ [] ∨ s.working ≠ [])) ∨
    (s.reports = [mkBatchReport s] ∧ s.pending = [] ∧ s.working = []))

theorem batchInv_init (items : List String) (hne : items ≠ []) :
    BatchInv items (initBatch items) := by
  rw [initBatch_spec]
  refine ⟨?_, ?_, Or.inl ⟨rfl, Or.inr ?_⟩⟩
  · simp only [List.length_take]
    omega
  · show (↑([] : List String) + ↑([] : List String) + ↑(items.take (min items.length 8)) +
      ↑(items.drop (min items.length 8)) : Multiset String) = ↑items
    have h2 : items.take (min items.length 8) ++ items.drop (min items.length 8) = items :=
      List.take_append_drop _ _
    rw [← h2]
    simp
  · simp only [ne_eq, List.take_eq_nil_iff]
    have h1 : 0 < items.length := List.length_pos.mpr hne
    intro hcon
    rcases hcon with h | h
    · omega
    · exact hne h

theorem batchInv_step {items : List String} {s s2 : BatchState}
    (hinv : BatchInv items s) (hstep : BatchStep s s2) : BatchInv items s2 := by
  obtain ⟨hlen, hload, hrep⟩ := hinv
  cases hstep with
  | finish name ok hm =>
    have hwne : s.working ≠ [] := by
      intro h
      rw [h] at hm
      cases hm
    have hrep0 : s.reports = [] := by
      rcases hrep with ⟨h1, _⟩ | ⟨_, _, h3⟩
      · exact h1
      · exact absurd h3 hwne
    have hperm : (↑s.working : Multiset String) = {name} + ↑(s.working.erase name) :=
      Multiset.coe_eq_coe.mpr (List.perm_cons_erase hm)
    have hlen2 : (s.working.erase name).length = s.working.length - 1 :=
      List.length_erase_of_mem hm
    have hwlenpos : 0 < s.working.length := List.length_pos.mpr hwne
    unfold finishStep launchWorker
    cases hp : s.pending with
    | cons p ps =>
      dsimp only
      refine ⟨?_, ?_, Or.inl ⟨hrep0, Or.inr (by simp)⟩⟩
      · simp only [List.length_append, List.length_cons, List.length_nil, hlen2]
        omega
      · rw [hp] at hload
        cases ok with
        | true =>
          simp only [if_true]
          have heq : (↑(s.succeeded ++ [name]) : Multiset String) + ↑s.failed +
              ↑(s.working.erase name ++ [p]) + ↑ps =
              ↑s.succeeded + ↑s.failed + ↑s.working + ↑(p :: ps) := by
            rw [hperm]
            simp only [← Multiset.coe_add, ← Multiset.cons_coe, ← Multiset.singleton_add,
              Multiset.coe_nil]
            abel
          rw [heq, hload]
        | false =>
          simp only [if_neg Bool.false_ne_true]
          have heq : (↑s.succeeded : Multiset String) + ↑(s.failed ++ [name]) +
              ↑(s.working.erase name ++ [p]) + ↑ps =
              ↑s.succeeded + ↑s.failed + ↑s.working + ↑(p :: ps) := by
            rw [hperm]
            simp only [← Multiset.coe_add, ← Multiset.cons_coe, ← Multiset.singleton_add,
              Multiset.coe_nil]
            abel
          rw [heq, hload]
    | nil =>
      dsimp only
      by_cases hw2 : (s.working.erase name).isEmpty = true
      · rw [if_pos hw2]
        have hw2e : s.working.erase name = [] := List.isEmpty_iff.mp hw2
        refine ⟨?_, ?_, Or.inr ⟨?_, rfl, hw2e⟩⟩
        · simp [hw2e]
        · rw [hp] at hload
          rw [hw2e]
          cases ok with
          | true =>
            simp only [if_true]
            have heq : (↑(s.succeeded ++ [name]) : Multiset String) + ↑s.failed +
                ↑([] : List String) + ↑([] : List String) =
                ↑s.succeeded + ↑s.failed + ↑s.working + ↑([] : List String) := by
              rw [hperm, hw2e]
              simp only [← Multiset.coe_add, ← Multiset.cons_coe, ← Multiset.singleton_add,
                Multiset.coe_nil]
              abel
            rw [heq, hload]
          | false =>
            simp only [if_neg Bool.false_ne_true]
            have heq : (↑s.succeeded : Multiset String) + ↑(s.failed ++ [name]) +
                ↑([] : List String) + ↑([] : List String) =
                ↑s.succeeded + ↑s.failed + ↑s.working + ↑([] : List String) := by
              rw [hperm, hw2e]
              simp only [← Multiset.coe_add, ← Multiset.cons_coe, ← Multiset.singleton_add,
                Multiset.coe_nil]
              abel
            rw [heq, hload]
        · rw [hrep0]
          simp [mkBatchReport]
      · rw [if_neg hw2]
        refine ⟨?_, ?_, Or.inl ⟨hrep0, Or.inr ?_⟩⟩
        · simp only [hlen2]
          omega
        · rw [hp] at hload
          cases ok with
          | true =>
            simp only [if_true]
            have heq : (↑(s.succeeded ++ [name]) : Multiset String) + ↑s.failed +
                ↑(s.working.erase name) + ↑([] : List String) =
                ↑s.succeeded + ↑s.failed + ↑s.working + ↑([] : List String) := by
              rw [hperm]
              simp only [← Multiset.coe_add, ← Multiset.cons_coe, ← Multiset.singleton_add,
                Multiset.coe_nil]
              abel
            rw [heq, hload]
          | false =>
            simp only [if_neg Bool.false_ne_true]
            have heq : (↑s.succeeded : Multiset String) + ↑(s.failed ++ [name]) +
                ↑(s.working.erase name) + ↑([] : List String) =
                ↑s.succeeded + ↑s.failed + ↑s.working + ↑([] : List String) := by
              rw [hperm]
              simp only [← Multiset.coe_add, ← Multiset.cons_coe, ← Multiset.singleton_add,
                Multiset.coe_nil]
              abel
            rw [heq, hload]
        · intro h
          dsimp only at h
          rw [h] at hw2
          simp at hw2

theorem batchInv_reach {items : List String} {s : BatchState} (hne : items ≠ [])
    (hr : BatchReach items s) : BatchInv items s := by
  induction hr with
  | refl => exact batchInv_init items hne
  | tail hr hstep ih => exact batchInv_step ih hstep

theorem diffFileStep_self (f : JVal) (acc : DiffData) (fn : String) :
    diffFileStep f f acc fn = acc := by
  dsimp only [diffFileStep]
  cases hv : jTruthy (if jTruthy f = true then jGetField f fn else JVal.null) with
  | true => simp [hv]
  | false => simp [hv]

theorem foldl_diffFileStep_self (f : JVal) : ∀ (names : List String) (acc : DiffData),
    names.foldl (diffFileStep f f) acc = acc := by
  intro names
  induction names with
  | nil => intro acc; rfl
  | cons n ns ih =>
    intro acc
    simp only [List.foldl_cons, diffFileStep_self]
    exact ih acc
/--
Claim C2: for every snapshot A whose settings and packages trees are
well-formed JavaScript values, diffing A against itself yields a result in
which all three sub-diffs (settings, packages and files) are absent (null),
not empty objects.
-/
theorem claim_C2 (live : String → JVal) (fuel : Nat) (A : Snapshot)
    (hs : jWF A.settings = true) (hp : jWF A.packages = true) :
    getDiffData live fuel A A = { settings := none, packages := none, files := none } := by
  dsimp only [getDiffData]
  rw [addedDiff_self _ hs, updatedDiff_self, deletedDiff_self _ hs,
      addedDiff_self _ hp, updatedDiff_self, deletedDiff_self _ hp]
  have hk : jHasKeys (JVal.obj []) = false := rfl
  rw [foldl_diffFileStep_self]
  simp only [hk, Bool.or_self, if_false, Bool.and_self]
  by_cases h1 : jTruthy A.settings = true <;>
    by_cases h2 : jTruthy A.packages = true <;>
      by_cases h3 : jTruthy A.files = true <;>
        simp [h1, h2, h3]

/-- Witness for claim C2 at a concrete snapshot with all three categories present. -/
theorem claim_C2_witness :
    jWF (JVal.obj [("*", JVal.obj [("a", JVal.num 1)])]) = true ∧
    getDiffData (fun _ => JVal.undef) 3
      { settings := JVal.obj [("*", JVal.obj [("a", JVal.num 1)])],
        packages := JVal.obj [("p", JVal.obj [("version", JVal.str "1.0")])],
        files := JVal.obj [("f.txt", JVal.obj [("content", JVal.str "x")])] }
      { settings := JVal.obj [("*", JVal.obj [("a", JVal.num 1)])],
        packages := JVal.obj [("p", JVal.obj [("version", JVal.str "1.0")])],
        files := JVal.obj [("f.txt", JVal.obj [("content", JVal.str "x")])] } =
      { settings := none, packages := none, files := none } :=
  ⟨by decide, claim_C2 (fun _ => JVal.undef) 3 _ (by decide) (by decide)⟩

/--
Claim C3 (amended): the restore flow selects a package name that is locally
installed for reinstall exactly when the locally installed descriptor has a
truthy apmInstallSource: the filter of line 770 reads apmInstallSource off
the package name string, which has no such property, so the backup
descriptor's install source is never consulted, and a backup-only install
source does not force a reinstall.
-/
theorem claim_C3 (availablePackages packages : JVal) (name : String)
    (hav : jTruthy (jGetField availablePackages name) = true) :
    name ∈ missingPackageNames availablePackages packages ↔
      name ∈ jObjKeys packages ∧
        jTruthy (jGetField (jGetField availablePackages name) "apmInstallSource") = true := by
  simp only [missingPackageNames, List.mem_filter, hav]
  have hstr : jGetField (JVal.str name) "apmInstallSource" = JVal.undef := rfl
  rw [hstr]
  cases ht : jTruthy (jGetField (jGetField availablePackages name) "apmInstallSource") <;>
    simp [jTruthy, ht]

/-- Witness for claim C3: a locally installed package with an install source
is selected even though the backup carries the same name and version. -/
theorem claim_C3_witness :
    jTruthy (jGetField (JVal.obj [("foo", JVal.obj [("version", JVal.str "1.0"),
      ("apmInstallSource", JVal.obj [("type", JVal.str "git")])])]) "foo") = true ∧
    ("foo" ∈ missingPackageNames
      (JVal.obj [("foo", JVal.obj [("version", JVal.str "1.0"),
        ("apmInstallSource", JVal.obj [("type", JVal.str "git")])])])
      (JVal.obj [("foo", JVal.obj [("version", JVal.str "1.0")])]) ↔
      "foo" ∈ jObjKeys (JVal.obj [("foo", JVal.obj [("version", JVal.str "1.0")])]) ∧
        jTruthy (jGetField (jGetField (JVal.obj [("foo", JVal.obj [("version", JVal.str "1.0"),
          ("apmInstallSource", JVal.obj [("type", JVal.str "git")])])]) "foo")
          "apmInstallSource") = true) :=
  ⟨by decide, claim_C3 _ _ "foo" (by decide)⟩

/--
Counterexample to claim C3 as stated: the backup descriptor of foo carries an
install source the local one lacks (same name and version), yet foo is not
selected for reinstall, and the package diff reports it under added, not
updated.
-/
theorem claim_C3_counterexample :
    missingPackageNames
      (JVal.obj [("foo", JVal.obj [("version", JVal.str "1.0")])])
      (JVal.obj [("foo", JVal.obj [("version", JVal.str "1.0"),
        ("apmInstallSource", JVal.obj [("type", JVal.str "git")])])]) = [] ∧
    (getDiffData (fun _ => JVal.undef) 4
      { settings := JVal.null,
        packages := JVal.obj [("foo", JVal.obj [("version", JVal.str "1.0")])],
        files := JVal.null }
      { settings := JVal.null,
        packages := JVal.obj [("foo", JVal.obj [("version", JVal.str "1.0"),
          ("apmInstallSource", JVal.obj [("type", JVal.str "git")])])],
        files := JVal.null }).packages =
      some { added := some (JVal.obj [("foo", JVal.obj [("apmInstallSource",
               JVal.obj [("type", JVal.str "git")])])]),
             updated := none, deleted := none } := by
  refine ⟨by decide, ?_⟩
  simp [getDiffData, addedDiff, deletedDiff, updatedDiff,
    addedFields_cons_some, addedFields_cons_none, addedFields_nil,
    deletedFields_cons_some, deletedFields_cons_none, deletedFields_nil,
    updatedFields_cons_some, updatedFields_cons_none, updatedFields_nil,
    jLookup, jHasKeys, jObjKeys, jEnumFields, jTruthy, jGetField]

/--
Claim C5 (amended): blacklisted keys are excluded from every outbound
snapshot, and applying a restored settings tree leaves the live value of a
blacklisted key unchanged provided the key has a defined live config value
(the re-seeding of addFilteredSettings skips keys whose live value is
undefined, so a forged key with no live counterpart does survive: see the
counterexample), the blacklisted key paths are pairwise non-prefix, the
inbound star subtree can store the key path, and the inbound tree has no
duplicate top-level scope keys.
-/
theorem claim_C5 (cfg : ConfigStore) (ubl : List String) (settings : JVal) (k : String)
    (hmem : k ∈ REMOVE_KEYS ++ ubl)
    (hlive : configGet cfg k ≠ JVal.undef)
    (hdiv : ∀ k2 ∈ REMOVE_KEYS ++ ubl, k2 ≠ k →
      pathsDiverge (splitKeyPath k) (splitKeyPath k2) = true)
    (hcan : canSetPath (jGetField (wrapStar settings) "*") (splitKeyPath k) = true)
    (hnd : ((jEnumFields (wrapStar settings)).map Prod.fst).Nodup) :
    getPath (jGetField (getFilteredSettings cfg ubl) "*") (splitKeyPath k) = JVal.undef ∧
    configGet (updateSettings cfg ubl settings) k = configGet cfg k :=
  ⟨getFilteredSettings_star_excludes cfg ubl k hmem,
   updateSettings_reseeds cfg ubl settings k hmem hlive hdiv hcan hnd⟩

/-- Witness for claim C5: the gist id key with a live value survives a
restore that tries to overwrite it, and is absent from the outbound snapshot. -/
theorem claim_C5_witness :
    "sync-settings.gistId" ∈ REMOVE_KEYS ++ ([] : List String) ∧
    configGet ⟨JVal.obj [("sync-settings", JVal.obj [("gistId", JVal.str "secret")])], []⟩
      "sync-settings.gistId" ≠ JVal.undef ∧
    getPath (jGetField (getFilteredSettings
        ⟨JVal.obj [("sync-settings", JVal.obj [("gistId", JVal.str "secret")])], []⟩ []) "*")
      (splitKeyPath "sync-settings.gistId") = JVal.undef ∧
    configGet (updateSettings
        ⟨JVal.obj [("sync-settings", JVal.obj [("gistId", JVal.str "secret")])], []⟩ []
        (JVal.obj [("*", JVal.obj [])]))
      "sync-settings.gistId" =
      configGet ⟨JVal.obj [("sync-settings", JVal.obj [("gistId", JVal.str "secret")])], []⟩
        "sync-settings.gistId" := by
  refine ⟨by decide, by decide, ?_⟩
  exact claim_C5
    ⟨JVal.obj [("sync-settings", JVal.obj [("gistId", JVal.str "secret")])], []⟩ []
    (JVal.obj [("*", JVal.obj [])]) "sync-settings.gistId"
    (by decide) (by decide) (by decide) (by decide) (by decide)

/--
Counterexample to claim C5 as stated: a backup carrying a forged gist id is
restored into a config whose live gist id is undefined; the forged value is
applied, so the live value of the blacklisted key does not stay unchanged.
-/
theorem claim_C5_counterexample :
    configGet { global := JVal.obj [], scopedTrees := [] } "sync-settings.gistId" =
      JVal.undef ∧
    configGet (updateSettings { global := JVal.obj [], scopedTrees := [] } []
        (JVal.obj [("*", JVal.obj [("sync-settings",
          JVal.obj [("gistId", JVal.str "forged")])])]))
      "sync-settings.gistId" = JVal.str "forged" := by decide

/--
Claim C8 (amended): every leaf the settings flattening emits with the
getOldValue flag (the updated bucket of the settings diff) carries an
oldValue read live from the current config at the leaf's flattened key path
at diff-report time.  The value field, however, is not always the backup's
new value: a nullish new value is also replaced by the live config value
before emission (see the counterexample).
-/
theorem claim_C8 (live : String → JVal) : ∀ (fuel : Nat) (v : JVal) (pfx : String)
    (e : DiffEntry), e ∈ settingsToKeyPaths live fuel v pfx true →
    e.oldValue = some (live e.keyPath) := by
  intro fuel
  induction fuel with
  | zero => intro v pfx e he; simp [settingsToKeyPaths] at he
  | succ fuel ih =>
    intro v pfx e he
    simp only [settingsToKeyPaths, List.mem_flatMap] at he
    obtain ⟨p, hp, hbody⟩ := he
    by_cases hobj : jTypeofObjectNotArray
        (if p.2 = JVal.null ∨ p.2 = JVal.undef
         then live (if pfx ≠ "" then pfx ++ "." ++ p.1
                    else if p.1 = "*" then "" else p.1)
         else p.2) = true
    · rw [if_pos hobj] at hbody
      exact ih _ _ e hbody
    · rw [if_neg hobj] at hbody
      simp only [List.mem_singleton] at hbody
      subst hbody
      rfl

/-- Witness for claim C8 at a concrete one-leaf tree and live config. -/
theorem claim_C8_witness :
    ({ keyPath := "a", value := JVal.num 1, oldValue := some (JVal.num 5) } : DiffEntry) ∈
      settingsToKeyPaths (fun _ => JVal.num 5) 3 (JVal.obj [("a", JVal.num 1)]) "" true ∧
    ({ keyPath := "a", value := JVal.num 1, oldValue := some (JVal.num 5) } : DiffEntry).oldValue =
      some ((fun _ => JVal.num 5)
        ({ keyPath := "a", value := JVal.num 1, oldValue := some (JVal.num 5) } : DiffEntry).keyPath) :=
  ⟨by decide, claim_C8 (fun _ => JVal.num 5) 3 (JVal.obj [("a", JVal.num 1)]) "" _ (by decide)⟩

/--
Counterexample to claim C8 as stated: a leaf updated to null in the backup is
emitted with the live config value (42) in its value field, not the backup's
new value (null): nullish new values are re-read from the live config before
the leaf is emitted.
-/
theorem claim_C8_counterexample :
    (getDiffData (fun _ => JVal.num 42) 4
        { settings := JVal.obj [("*", JVal.obj [("a", JVal.num 1)])],
          packages := JVal.null, files := JVal.null }
        { settings := JVal.obj [("*", JVal.obj [("a", JVal.null)])],
          packages := JVal.null, files := JVal.null }).settings =
      some { added := none,
             updated := some [{ keyPath := "a", value := JVal.num 42,
                                oldValue := some (JVal.num 42) }],
             deleted := none } ∧
    jGetField (jGetField (JVal.obj [("*", JVal.obj [("a", JVal.null)])]) "*") "a" =
      JVal.null ∧
    JVal.num 42 ≠ JVal.null := by
  refine ⟨?_, by decide, by decide⟩
  simp [getDiffData, addedDiff, deletedDiff, updatedDiff,
    addedFields_cons_some, addedFields_cons_none, addedFields_nil,
    deletedFields_cons_some, deletedFields_cons_none, deletedFields_nil,
    updatedFields_cons_some, updatedFields_cons_none, updatedFields_nil,
    jLookup, jHasKeys, jObjKeys, jEnumFields, jTruthy, jGetField,
    settingsToKeyPaths, jTypeofObjectNotArray]

theorem cmpNat_lt {a b : Nat} (h : a < b) : cmpNat a b = Ordering.lt := by
  simp [cmpNat, h]

theorem cmpNat_gt {a b : Nat} (h : b < a) : cmpNat a b = Ordering.gt := by
  have h1 : ¬ a < b := by omega
  simp [cmpNat, h1, h]

theorem cmpNat_self (a : Nat) : cmpNat a a = Ordering.eq := by
  simp [cmpNat]

theorem cmpNat_eq_lt {a b : Nat} (h : cmpNat a b = Ordering.lt) : a < b := by
  rcases Nat.lt_trichotomy a b with h1 | h1 | h1
  · exact h1
  · subst h1; rw [cmpNat_self] at h; cases h
  · rw [cmpNat_gt h1] at h; cases h

theorem cmpNat_eq_gt {a b : Nat} (h : cmpNat a b = Ordering.gt) : b < a := by
  rcases Nat.lt_trichotomy a b with h1 | h1 | h1
  · rw [cmpNat_lt h1] at h; cases h
  · subst h1; rw [cmpNat_self] at h; cases h
  · exact h1

theorem cmpNat_eq_eq {a b : Nat} (h : cmpNat a b = Ordering.eq) : a = b := by
  rcases Nat.lt_trichotomy a b with h1 | h1 | h1
  · rw [cmpNat_lt h1] at h; cases h
  · exact h1
  · rw [cmpNat_gt h1] at h; cases h

theorem cmpCodes_self : ∀ x : List Nat, cmpCodes x x = Ordering.eq := by
  intro x
  induction x with
  | nil => rfl
  | cons a as ih => simp [cmpCodes, cmpNat_self, ih]

theorem cmpCodes_eq_eq : ∀ {x y : List Nat}, cmpCodes x y = Ordering.eq → x = y := by
  intro x
  induction x with
  | nil =>
    intro y h
    cases y with
    | nil => rfl
    | cons b bs => simp [cmpCodes] at h
  | cons a as ih =>
    intro y h
    cases y with
    | nil => simp [cmpCodes] at h
    | cons b bs =>
      rw [cmpCodes] at h
      cases hab : cmpNat a b with
      | lt => rw [hab] at h; cases h
      | gt => rw [hab] at h; cases h
      | eq =>
        rw [hab] at h
        rw [cmpNat_eq_eq hab, ih h]

theorem cmpCodes_swap : ∀ x y : List Nat, cmpCodes y x = (cmpCodes x y).swap := by
  intro x
  induction x with
  | nil =>
    intro y
    cases y with
    | nil => rfl
    | cons b bs => rfl
  | cons a as ih =>
    intro y
    cases y with
    | nil => rfl
    | cons b bs =>
      rw [cmpCodes, cmpCodes]
      rcases Nat.lt_trichotomy a b with h1 | h1 | h1
      · rw [cmpNat_lt h1, cmpNat_gt h1]; rfl
      · subst h1; rw [cmpNat_self, ih]
      · rw [cmpNat_gt h1, cmpNat_lt h1]; rfl

theorem cmpCodes_le_trans : ∀ {x y z : List Nat}, cmpCodes x y ≠ Ordering.gt →
    cmpCodes y z ≠ Ordering.gt → cmpCodes x z ≠ Ordering.gt := by
  intro x
  induction x with
  | nil =>
    intro y z h1 h2
    cases z with
    | nil => simp [cmpCodes]
    | cons c cs => simp [cmpCodes]
  | cons a as ih =>
    intro y z h1 h2
    cases y with
    | nil => rw [cmpCodes] at h1; exact absurd rfl h1
    | cons b bs =>
      cases z with
      | nil => rw [cmpCodes] at h2; exact absurd rfl h2
      | cons c cs =>
        rw [cmpCodes] at h1 h2 ⊢
        cases hab : cmpNat a b with
        | gt => rw [hab] at h1; exact absurd rfl h1
        | lt =>
          have hab2 := cmpNat_eq_lt hab
          cases hbc : cmpNat b c with
          | gt => rw [hbc] at h2; exact absurd rfl h2
          | lt =>
            have hbc2 := cmpNat_eq_lt hbc
            rw [cmpNat_lt (by omega)]
            simp
          | eq =>
            have hbc2 := cmpNat_eq_eq hbc
            rw [cmpNat_lt (by omega)]
            simp
        | eq =>
          have hab2 := cmpNat_eq_eq hab
          rw [hab] at h1
          cases hbc : cmpNat b c with
          | gt => rw [hbc] at h2; exact absurd rfl h2
          | lt =>
            have hbc2 := cmpNat_eq_lt hbc
            rw [cmpNat_lt (by omega)]
            simp
          | eq =>
            have hbc2 := cmpNat_eq_eq hbc
            rw [hbc] at h2
            subst hab2
            rw [cmpNat_eq_eq hbc]
            rw [cmpNat_self]
            exact ih h1 h2

theorem strLe_iff {a b : String} : strLe a b = true ↔
    cmpCodes (a.data.map Char.toNat) (b.data.map Char.toNat) ≠ Ordering.gt := by
  rw [strLe]
  cases h : cmpCodes (a.data.map Char.toNat) (b.data.map Char.toNat) <;> simp [h]

theorem string_eq_of_codes_eq {a b : String}
    (h : a.data.map Char.toNat = b.data.map Char.toNat) : a = b := by
  have hinj : Function.Injective Char.toNat := by
    intro c d hcd
    have h1 : Char.ofNat c.toNat = Char.ofNat d.toNat := by rw [hcd]
    rwa [Char.ofNat_toNat, Char.ofNat_toNat] at h1
  have hdata : a.data = b.data := List.map_injective_iff.mpr hinj h
  cases a
  cases b
  simp only at hdata
  rw [hdata]

instance : IsTotal String (fun a b : String => strLe a b = true) := by
  constructor
  intro a b
  rw [strLe_iff, strLe_iff]
  cases h : cmpCodes (a.data.map Char.toNat) (b.data.map Char.toNat) with
  | lt => left; simp [h]
  | eq => left; simp [h]
  | gt =>
    right
    rw [cmpCodes_swap, h]
    simp [Ordering.swap]

instance : IsTrans String (fun a b : String => strLe a b = true) := by
  constructor
  intro a b c h1 h2
  rw [strLe_iff] at h1 h2 ⊢
  exact cmpCodes_le_trans h1 h2

instance : IsAntisymm String (fun a b : String => strLe a b = true) := by
  constructor
  intro a b h1 h2
  rw [strLe_iff] at h1 h2
  rw [cmpCodes_swap] at h2
  apply string_eq_of_codes_eq
  cases h : cmpCodes (a.data.map Char.toNat) (b.data.map Char.toNat) with
  | lt => rw [h] at h2; exact absurd rfl h2
  | gt => exact absurd h h1
  | eq => exact cmpCodes_eq_eq h

theorem mem_dedupAux : ∀ (l seen : List String) (a : String),
    a ∈ dedupAux l seen ↔ a ∈ l ∧ a ∉ seen := by
  intro l
  induction l with
  | nil => intro seen a; simp [dedupAux]
  | cons x xs ih =>
    intro seen a
    rw [dedupAux]
    by_cases hx : x ∈ seen
    · rw [if_pos hx, ih]
      simp only [List.mem_cons]
      constructor
      · rintro ⟨h1, h2⟩; exact ⟨Or.inr h1, h2⟩
      · rintro ⟨h1 | h1, h2⟩
        · subst h1; exact absurd hx h2
        · exact ⟨h1, h2⟩
    · rw [if_neg hx]
      simp only [List.mem_cons, ih, List.mem_cons]
      constructor
      · rintro (h1 | ⟨h1, h2⟩)
        · subst h1; exact ⟨Or.inl rfl, hx⟩
        · exact ⟨Or.inr h1, fun hc => h2 (Or.inr hc)⟩
      · rintro ⟨h1 | h1, h2⟩
        · subst h1; exact Or.inl rfl
        · by_cases hax : a = x
          · exact Or.inl hax
          · refine Or.inr ⟨h1, ?_⟩
            intro hc
            rcases hc with hc | hc
            · exact hax hc
            · exact h2 hc

theorem nodup_dedupAux : ∀ (l seen : List String), (dedupAux l seen).Nodup := by
  intro l
  induction l with
  | nil => intro seen; simp [dedupAux]
  | cons x xs ih =>
    intro seen
    rw [dedupAux]
    by_cases hx : x ∈ seen
    · rw [if_pos hx]; exact ih seen
    · rw [if_neg hx]
      refine List.nodup_cons.mpr ⟨?_, ih _⟩
      rw [mem_dedupAux]
      rintro ⟨h1, h2⟩
      exact h2 (List.mem_cons_self x seen)

theorem mem_dedupKeepFirst {l : List String} {a : String} :
    a ∈ dedupKeepFirst l ↔ a ∈ l := by
  rw [dedupKeepFirst, mem_dedupAux]
  simp

theorem nodup_dedupKeepFirst (l : List String) : (dedupKeepFirst l).Nodup :=
  nodup_dedupAux l []

theorem insertionSort_strLe_eq_of_perm {l1 l2 : List String} (h : l1.Perm l2) :
    List.insertionSort (fun a b : String => strLe a b = true) l1 =
      List.insertionSort (fun a b : String => strLe a b = true) l2 :=
  List.eq_of_perm_of_sorted
    ((List.perm_insertionSort _ l1).trans (h.trans (List.perm_insertionSort _ l2).symm))
    (List.sorted_insertionSort _ l1) (List.sorted_insertionSort _ l2)

theorem diffFileNames_swap (l b : JVal) : diffFileNames l b = diffFileNames b l := by
  rw [diffFileNames, diffFileNames]
  apply insertionSort_strLe_eq_of_perm
  rw [List.perm_ext_iff_of_nodup (nodup_dedupKeepFirst _) (nodup_dedupKeepFirst _)]
  intro a
  rw [mem_dedupKeepFirst, mem_dedupKeepFirst, List.mem_append, List.mem_append]
  exact Or.comm

/-- The entries stored in the added bucket of the files sub-diff. -/
def fAddedList (d : DiffData) : List (String × JVal) :=
  match d.files with
  | some fd => fd.added.getD []
  | none => []

/-- The entries stored in the deleted bucket of the files sub-diff. -/
def fDeletedList (d : DiffData) : List (String × JVal) :=
  match d.files with
  | some fd => fd.deleted.getD []
  | none => []

theorem fAddedList_addDiffFile_added (d : DiffData) (fn : String) (o : JVal) :
    fAddedList (addDiffFile d FileBucket.added fn o) = jUpsert (fAddedList d) fn o := by
  rcases d with ⟨s, p, f⟩
  cases f <;> rfl

theorem fAddedList_addDiffFile_updated (d : DiffData) (fn : String) (o : JVal) :
    fAddedList (addDiffFile d FileBucket.updated fn o) = fAddedList d := by
  rcases d with ⟨s, p, f⟩
  cases f <;> rfl

theorem fAddedList_addDiffFile_deleted (d : DiffData) (fn : String) (o : JVal) :
    fAddedList (addDiffFile d FileBucket.deleted fn o) = fAddedList d := by
  rcases d with ⟨s, p, f⟩
  cases f <;> rfl

theorem fDeletedList_addDiffFile_added (d : DiffData) (fn : String) (o : JVal) :
    fDeletedList (addDiffFile d FileBucket.added fn o) = fDeletedList d := by
  rcases d with ⟨s, p, f⟩
  cases f <;> rfl

theorem fDeletedList_addDiffFile_updated (d : DiffData) (fn : String) (o : JVal) :
    fDeletedList (addDiffFile d FileBucket.updated fn o) = fDeletedList d := by
  rcases d with ⟨s, p, f⟩
  cases f <;> rfl

theorem fDeletedList_addDiffFile_deleted (d : DiffData) (fn : String) (o : JVal) :
    fDeletedList (addDiffFile d FileBucket.deleted fn o) = jUpsert (fDeletedList d) fn o := by
  rcases d with ⟨s, p, f⟩
  cases f <;> rfl

theorem diffFileStep_packages (l b : JVal) (acc : DiffData) (fn : String) :
    (diffFileStep l b acc fn).packages = acc.packages := by
  dsimp only [diffFileStep]
  split_ifs <;> rfl

theorem foldl_diffFileStep_packages (l b : JVal) : ∀ (names : List String) (acc : DiffData),
    (names.foldl (diffFileStep l b) acc).packages = acc.packages := by
  intro names
  induction names with
  | nil => intro acc; rfl
  | cons n ns ih =>
    intro acc
    rw [List.foldl_cons, ih, diffFileStep_packages]

theorem diffFileStep_mirror (l b : JVal) (fn : String) (acc1 acc2 : DiffData)
    (h : fAddedList acc1 = fDeletedList acc2) :
    fAddedList (diffFileStep l b acc1 fn) = fDeletedList (diffFileStep b l acc2 fn) := by
  dsimp only [diffFileStep]
  cases hB : jTruthy (if jTruthy b = true then jGetField b fn else JVal.null) with
  | true =>
    cases hL : jTruthy (if jTruthy l = true then jGetField l fn else JVal.null) with
    | true =>
      simp only [Bool.and_self, Bool.and_false, Bool.false_and, Bool.and_true,
        Bool.true_and, eq_self_iff_true, if_true, Bool.false_eq_true, if_false]
      by_cases hc : jGetField (if jTruthy l = true then jGetField l fn else JVal.null)
          "content" = jGetField (if jTruthy b = true then jGetField b fn else JVal.null)
          "content"
      · rw [if_neg (by simp [hc]), if_neg (by simp [hc])]
        exact h
      · rw [if_pos hc, if_pos (Ne.symm hc)]
        rw [fAddedList_addDiffFile_updated, fDeletedList_addDiffFile_updated]
        exact h
    | false =>
      simp only [Bool.and_self, Bool.and_false, Bool.false_and, Bool.and_true,
        Bool.true_and, eq_self_iff_true, if_true, Bool.false_eq_true, if_false]
      rw [fAddedList_addDiffFile_added, fDeletedList_addDiffFile_deleted, h]
  | false =>
    cases hL : jTruthy (if jTruthy l = true then jGetField l fn else JVal.null) with
    | true =>
      simp only [Bool.and_self, Bool.and_false, Bool.false_and, Bool.and_true,
        Bool.true_and, eq_self_iff_true, if_true, Bool.false_eq_true, if_false]
      rw [fAddedList_addDiffFile_deleted, fDeletedList_addDiffFile_added]
      exact h
    | false =>
      simp only [Bool.and_self, Bool.and_false, Bool.false_and, Bool.and_true,
        Bool.true_and, eq_self_iff_true, if_true, Bool.false_eq_true, if_false]
      exact h

theorem foldl_diffFileStep_mirror (l b : JVal) : ∀ (names : List String)
    (acc1 acc2 : DiffData), fAddedList acc1 = fDeletedList acc2 →
    fAddedList (names.foldl (diffFileStep l b) acc1) =
      fDeletedList (names.foldl (diffFileStep b l) acc2) := by
  intro names
  induction names with
  | nil => intro acc1 acc2 h; exact h
  | cons n ns ih =>
    intro acc1 acc2 h
    rw [List.foldl_cons, List.foldl_cons]
    exact ih _ _ (diffFileStep_mirror l b n acc1 acc2 h)

theorem getDiffData_packages (live : String → JVal) (fuel : Nat) (X Y : Snapshot) :
    (getDiffData live fuel X Y).packages =
      (if jTruthy Y.packages && jTruthy X.packages then
        if jHasKeys (addedDiff X.packages Y.packages) ||
            jHasKeys (updatedDiff X.packages Y.packages) ||
            jHasKeys (deletedDiff X.packages Y.packages) then
          some { added := if jHasKeys (addedDiff X.packages Y.packages) then
                   some (addedDiff X.packages Y.packages) else none,
                 updated := if jHasKeys (updatedDiff X.packages Y.packages) then
                     some (JVal.obj ((jObjKeys (updatedDiff X.packages Y.packages)).map
                       (fun name => (name, JVal.obj [("backup", jGetField Y.packages name),
                                        ("local", jGetField X.packages name)]))))
                   else none,
                 deleted := if jHasKeys (deletedDiff X.packages Y.packages) then
                     some (JVal.obj ((jObjKeys (deletedDiff X.packages Y.packages)).map
                       (fun name => (name, jGetField X.packages name))))
                   else none }
        else none
      else if jTruthy Y.packages then
        some { added := some Y.packages, updated := none, deleted := none }
      else if jTruthy X.packages then
        some { added := none, updated := none, deleted := some X.packages }
      else none) := by
  dsimp only [getDiffData]
  by_cases hf : (jTruthy X.files || jTruthy Y.files) = true
  · rw [if_pos hf, foldl_diffFileStep_packages]
  · rw [if_neg hf]

theorem fAddedList_fDeletedList_getDiffData (live : String → JVal) (fuel : Nat)
    (A B : Snapshot) :
    fAddedList (getDiffData live fuel A B) = fDeletedList (getDiffData live fuel B A) := by
  dsimp only [getDiffData]
  cases hf : (jTruthy A.files || jTruthy B.files) with
  | true =>
    have hf2 : (jTruthy B.files || jTruthy A.files) = true := by rwa [Bool.or_comm] at hf
    rw [hf2]
    simp only [eq_self_iff_true, if_true]
    rw [diffFileNames_swap A.files B.files]
    apply foldl_diffFileStep_mirror
    rfl
  | false =>
    have hf2 : (jTruthy B.files || jTruthy A.files) = false := by rwa [Bool.or_comm] at hf
    rw [hf2]
    simp only [Bool.false_eq_true, if_false]
    rfl

/-- The key set of the added bucket of the packages sub-diff ([] when absent). -/
def packagesAddedKeys (d : DiffData) : List String :=
  match d.packages with
  | some pd =>
      match pd.added with
      | some v => jObjKeys v
      | none => []
  | none => []

/-- The key set of the deleted bucket of the packages sub-diff ([] when absent). -/
def packagesDeletedKeys (d : DiffData) : List String :=
  match d.packages with
  | some pd =>
      match pd.deleted with
      | some v => jObjKeys v
      | none => []
  | none => []

/-- The file names of the added bucket of the files sub-diff. -/
def filesAddedKeys (d : DiffData) : List String :=
  (fAddedList d).map Prod.fst

/-- The file names of the deleted bucket of the files sub-diff. -/
def filesDeletedKeys (d : DiffData) : List String :=
  (fDeletedList d).map Prod.fst

theorem packages_added_deleted_keys (live : String → JVal) (fuel : Nat) (A B : Snapshot) :
    packagesAddedKeys (getDiffData live fuel A B) =
      packagesDeletedKeys (getDiffData live fuel B A) := by
  rw [packagesAddedKeys, packagesDeletedKeys, getDiffData_packages, getDiffData_packages]
  have hkeys := jObjKeys_added_deleted A.packages B.packages
  have hhk : jHasKeys (addedDiff A.packages B.packages) =
      jHasKeys (deletedDiff B.packages A.packages) := by
    rw [jHasKeys, jHasKeys, hkeys]
  cases h1 : jTruthy A.packages with
  | true =>
    cases h2 : jTruthy B.packages with
    | true =>
      simp only [h1, h2, Bool.and_self, eq_self_iff_true, if_true]
      cases hka : jHasKeys (addedDiff A.packages B.packages) with
      | true =>
        have hkd : jHasKeys (deletedDiff B.packages A.packages) = true := by
          rw [← hhk]; exact hka
        simp only [hka, hkd, Bool.true_or, Bool.or_true, if_true]
        rw [hkeys]
        simp [jObjKeys, jEnumFields, List.map_map]
      | false =>
        have hkd : jHasKeys (deletedDiff B.packages A.packages) = false := by
          rw [← hhk]; exact hka
        simp only [hka, hkd, Bool.false_or, Bool.or_false, Bool.false_eq_true, if_false]
        cases ht1 : (jHasKeys (updatedDiff A.packages B.packages) ||
            jHasKeys (deletedDiff A.packages B.packages)) <;>
          cases ht2 : (jHasKeys (addedDiff B.packages A.packages) ||
              jHasKeys (updatedDiff B.packages A.packages)) <;>
            simp
    | false =>
      simp only [h1, h2, Bool.and_false, Bool.false_and, Bool.and_true, Bool.true_and,
        Bool.false_eq_true, if_false, eq_self_iff_true, if_true]
  | false =>
    cases h2 : jTruthy B.packages with
    | true =>
      simp only [h1, h2, Bool.and_false, Bool.false_and, Bool.and_true, Bool.true_and,
        Bool.false_eq_true, if_false, eq_self_iff_true, if_true]
    | false =>
      simp only [h1, h2, Bool.and_self, Bool.false_eq_true, if_false]

/--
Claim C7 (amended): the added/deleted antisymmetry under swapping the two
snapshots holds for the packages and files sub-diffs (equal key sets), and
for the settings category it holds at the level of the structural diff keys;
after the settings flattening to dot-joined key paths it fails (added leaves
are flattened through nested objects while deleted markers are not: see the
counterexample).
-/
theorem claim_C7 (live : String → JVal) (fuel : Nat) (A B : Snapshot) :
    packagesAddedKeys (getDiffData live fuel A B) =
      packagesDeletedKeys (getDiffData live fuel B A) ∧
    filesAddedKeys (getDiffData live fuel A B) =
      filesDeletedKeys (getDiffData live fuel B A) ∧
    jObjKeys (addedDiff A.settings B.settings) =
      jObjKeys (deletedDiff B.settings A.settings) :=
  ⟨packages_added_deleted_keys live fuel A B,
   by rw [filesAddedKeys, filesDeletedKeys, fAddedList_fDeletedList_getDiffData],
   jObjKeys_added_deleted A.settings B.settings⟩

/--
Counterexample to claim C7 as stated: for settings the flattened added key
paths of diff(A, B) are not the flattened deleted key paths of diff(B, A):
an object added below a key is flattened to its leaf paths, while a deletion
is marked at the key itself.
-/
theorem claim_C7_counterexample :
    ((getDiffData (fun _ => JVal.undef) 4
      { settings := JVal.obj [("*", JVal.obj [])], packages := JVal.null, files := JVal.null }
      { settings := JVal.obj [("*", JVal.obj [("a", JVal.obj [("x", JVal.num 1)])])],
        packages := JVal.null, files := JVal.null }).settings.map (fun sd =>
        sd.added.map (fun l => l.map DiffEntry.keyPath))) = some (some ["a.x"]) ∧
    ((getDiffData (fun _ => JVal.undef) 4
      { settings := JVal.obj [("*", JVal.obj [("a", JVal.obj [("x", JVal.num 1)])])],
        packages := JVal.null, files := JVal.null }
      { settings := JVal.obj [("*", JVal.obj [])], packages := JVal.null,
        files := JVal.null }).settings.map (fun sd =>
        sd.deleted.map (fun l => l.map DiffEntry.keyPath))) = some (some ["a"]) ∧
    (["a.x"] : List String) ≠ ["a"] := by
  refine ⟨?_, ?_, by decide⟩ <;>
  simp [getDiffData, addedDiff, deletedDiff, updatedDiff,
    addedFields_cons_some, addedFields_cons_none, addedFields_nil,
    deletedFields_cons_some, deletedFields_cons_none, deletedFields_nil,
    updatedFields_cons_some, updatedFields_cons_none, updatedFields_nil,
    jLookup, jHasKeys, jObjKeys, jEnumFields, jTruthy, jGetField,
    settingsToKeyPaths, jTypeofObjectNotArray]

theorem insertByCmp_map_fst_perm (cmp : String → String → Ordering) (p : String × JVal) :
    ∀ qs : List (String × JVal),
      ((insertByCmp cmp p qs).map Prod.fst).Perm (p.1 :: qs.map Prod.fst) := by
  intro qs
  induction qs with
  | nil => simp [insertByCmp]
  | cons q qs ih =>
    rw [insertByCmp]
    by_cases h : cmp p.1 q.1 = Ordering.gt
    · rw [if_pos h]
      simp only [List.map_cons]
      exact (ih.cons q.1).trans (List.Perm.swap p.1 q.1 (qs.map Prod.fst))
    · rw [if_neg h]
      simp

theorem sortObject_map_fst_perm (cmp : String → String → Ordering) :
    ∀ fs : List (String × JVal),
      ((sortObject fs cmp).map Prod.fst).Perm (fs.map Prod.fst) := by
  intro fs
  induction fs with
  | nil => simp [sortObject]
  | cons p ps ih =>
    rw [sortObject]
    exact (insertByCmp_map_fst_perm cmp p (sortObject ps cmp)).trans (ih.cons p.1)

/--
Claim C9 (amended): the diff engine iterates file names in sorted plain
lexicographic order without duplicates, and is therefore deterministic for
identical inputs; sortObject, however, finalizes a snapshot's files map with
the locale-sensitive localeCompare comparator, a reordering (permutation) of
the entries whose order differs from the plain lexicographic one on
mixed-case names (see the counterexample).
-/
theorem claim_C9 (l b : JVal) (fs : List (String × JVal)) :
    List.Sorted (fun a c : String => strLe a c = true) (diffFileNames l b) ∧
    (diffFileNames l b).Nodup ∧
    ((sortObject fs).map Prod.fst).Perm (fs.map Prod.fst) :=
  ⟨List.sorted_insertionSort _ _,
   (List.perm_insertionSort _ _).nodup_iff.mpr
     (nodup_dedupKeepFirst _),
   sortObject_map_fst_perm localeCompareModel fs⟩

/--
Counterexample to claim C9 as stated: snapshot finalization (sortObject with
its default localeCompare comparator) orders the keys B, a as [a, B], while
the diff engine iterates them in plain lexicographic order [B, a]: the two
orderings are not the same.
-/
theorem claim_C9_counterexample :
    sortObject [("B", JVal.num 1), ("a", JVal.num 2)] =
      [("a", JVal.num 2), ("B", JVal.num 1)] ∧
    diffFileNames (JVal.obj [("B", JVal.obj [("content", JVal.str "x")]),
        ("a", JVal.obj [("content", JVal.str "y")])]) JVal.null = ["B", "a"] ∧
    (sortObject [("B", JVal.num 1), ("a", JVal.num 2)]).map Prod.fst ≠ ["B", "a"] := by
  decide

/--
Claim C10: a restored settings tree lacking a top-level star scope key is
wrapped whole as the global scope before blacklist re-seeding and
application, so a legacy backup is applied entirely at the global scope: the
scoped override trees of the config store are untouched.
-/
theorem claim_C10 (cfg : ConfigStore) (ubl : List String) (settings : JVal)
    (h : jHasKey settings "*" = false) :
    wrapStar settings = JVal.obj [("*", settings)] ∧
    (updateSettings cfg ubl settings).scopedTrees = cfg.scopedTrees := by
  have hw : wrapStar settings = JVal.obj [("*", settings)] := by
    rw [wrapStar, h]
    simp
  refine ⟨hw, ?_⟩
  obtain ⟨fs2, h1, h2, h4⟩ := addFilteredSettings_inv cfg (REMOVE_KEYS ++ ubl)
    [("*", settings)] settings (by simp [jLookup])
  have hs2 : addFilteredSettings cfg ubl (wrapStar settings) = JVal.obj fs2 := by
    rw [hw]
    exact h1
  have hfs2 : ∃ v, fs2 = [("*", v)] := by
    cases fs2 with
    | nil => simp at h4
    | cons p tail =>
      cases tail with
      | nil =>
        rcases p with ⟨k, v⟩
        simp at h4
        exact ⟨v, by rw [h4]⟩
      | cons q ttail => simp at h4
  obtain ⟨v, hv⟩ := hfs2
  simp only [updateSettings]
  rw [hs2, hv]
  simp [jEnumFields, configSetAll]

/-- Witness for claim C10: a legacy one-key tree applied to a store with one
scoped override tree. -/
theorem claim_C10_witness :
    jHasKey (JVal.obj [("a", JVal.num 1)]) "*" = false ∧
    wrapStar (JVal.obj [("a", JVal.num 1)]) =
      JVal.obj [("*", JVal.obj [("a", JVal.num 1)])] ∧
    (updateSettings ⟨JVal.obj [], [(".source.js", JVal.obj [])]⟩ []
      (JVal.obj [("a", JVal.num 1)])).scopedTrees =
      (⟨JVal.obj [], [(".source.js", JVal.obj [])]⟩ : ConfigStore).scopedTrees := by
  refine ⟨by decide, ?_⟩
  exact claim_C10 ⟨JVal.obj [], [(".source.js", JVal.obj [])]⟩ []
    (JVal.obj [("a", JVal.num 1)]) (by decide)

/--
Claim C4: whenever some blob of the backup makes the classifier throw (a
malformed settings or packages blob of an enabled category), getBackupData
returns no snapshot at all and exactly one error notification, which names
the offending blob.
-/
theorem claim_C4 (env : ClassifierEnv) (files : List (String × Blob))
    (h : ∃ p ∈ files, (blobThrowError env p.1 p.2).isSome) :
    (getBackupData env files).1 = none ∧
    ∃ fn b e, (fn, b) ∈ files ∧ blobThrowError env fn b = some e ∧
      (getBackupData env files).2 = [parseErrorNotif fn e] := by
  obtain ⟨fn, b, e, hmem, hsome, heq⟩ := getBackupData_aborts env files h
  rw [heq]
  exact ⟨rfl, fn, b, e, hmem, hsome, rfl⟩

/-- A concrete classifier profile with settings and packages sync enabled. -/
def demoEnv : ClassifierEnv :=
  ⟨true, true, false, false, false, false, false, false, [], [], [],
   fun _ => false, fun _ _ => false, "/cfg", "/cfg/keymap.cson", "/cfg/styles.less"⟩

/-- A settings blob whose content is malformed JSON. -/
def demoBadBlob : Blob :=
  ⟨"\x7b", Except.error "Unexpected end of JSON input"⟩

/-- Witness for claim C4: one malformed settings blob aborts classification. -/
theorem claim_C4_witness :
    (∃ p ∈ [("settings.json", demoBadBlob)], (blobThrowError demoEnv p.1 p.2).isSome) ∧
    (getBackupData demoEnv [("settings.json", demoBadBlob)]).1 = none ∧
    ∃ fn b e, (fn, b) ∈ [("settings.json", demoBadBlob)] ∧
      blobThrowError demoEnv fn b = some e ∧
      (getBackupData demoEnv [("settings.json", demoBadBlob)]).2 =
        [parseErrorNotif fn e] := by
  have h : ∃ p ∈ [("settings.json", demoBadBlob)],
      (blobThrowError demoEnv p.1 p.2).isSome :=
    ⟨("settings.json", demoBadBlob), by simp, by rw [demoBadBlob]; rfl⟩
  exact ⟨h, claim_C4 demoEnv [("settings.json", demoBadBlob)] h⟩

/--
Claim C1: for every non-empty item list, the batch executor starts with
exactly min(number of items, 8) items in flight; in every reachable state at
most that many items are in flight; the four lists together always hold
exactly the original items, so no item is lost or processed twice (for
duplicate-free items the union stays duplicate-free); and when the batch
completes (nothing pending, nothing in flight) the succeeded and failed
counts sum to the number of items.
-/
theorem claim_C1 (items : List String) (hne : items ≠ []) :
    (initBatch items).working.length = min items.length 8 ∧
    ∀ s : BatchState, BatchReach items s →
      s.working.length ≤ min items.length 8 ∧
      (↑s.succeeded + ↑s.failed + ↑s.working + ↑s.pending : Multiset String) = ↑items ∧
      (items.Nodup → (s.succeeded ++ s.failed ++ s.working ++ s.pending).Nodup) ∧
      (s.pending = [] → s.working = [] →
        s.succeeded.length + s.failed.length = items.length) := by
  constructor
  · rw [initBatch_spec]
    simp only [List.length_take]
    omega
  · intro s hr
    obtain ⟨hlen, hload, _⟩ := batchInv_reach hne hr
    refine ⟨hlen, hload, ?_, ?_⟩
    · intro hnd
      have hload2 := hload
      simp only [Multiset.coe_add] at hload2
      have hperm := Multiset.coe_eq_coe.mp hload2
      have hnd2 := hperm.nodup_iff.mpr hnd
      simpa [List.append_assoc] using hnd2
    · intro hp hw
      rw [hp, hw] at hload
      have hcard := congrArg Multiset.card hload
      simp only [Multiset.card_add, Multiset.coe_card, List.length_nil] at hcard
      omega

/-- Witness for claim C1 at a concrete two-item batch. -/
theorem claim_C1_witness :
    (["a", "b"] : List String) ≠ [] ∧
    (initBatch ["a", "b"]).working.length = min (["a", "b"] : List String).length 8 :=
  ⟨by decide, (claim_C1 ["a", "b"] (by decide)).1⟩

/--
Claim C6: in every reachable state of a batch over a non-empty item list, at
most one aggregate report has been emitted; every completed state (pending
queue empty and every in-flight item finished, so the in-progress
notification set is empty) has emitted exactly the one aggregate report,
which is the success message with the succeeded count when nothing failed
and otherwise the warning naming the sorted failed items; and conversely any
state with a report is such a completed state and admits no further batch
step, so the report is emitted exactly once, after the last item finishes.
-/
theorem claim_C6 (items : List String) (s : BatchState) (hne : items ≠ [])
    (hr : BatchReach items s) :
    s.reports.length ≤ 1 ∧
    (s.pending = [] → s.working = [] →
      s.reports = [if s.failed.isEmpty then BatchReport.success s.succeeded.length
                   else BatchReport.warning (sortStrings s.failed)]) ∧
    (s.reports ≠ [] →
      s.pending = [] ∧ s.working = [] ∧
      s.reports = [if s.failed.isEmpty then BatchReport.success s.succeeded.length
                   else BatchReport.warning (sortStrings s.failed)] ∧
      ∀ s2, ¬ BatchStep s s2) := by
  obtain ⟨h1, h2, hrep⟩ := batchInv_reach hne hr
  rcases hrep with ⟨hrep0, hwork⟩ | ⟨hrep1, hp, hw⟩
  · rw [hrep0]
    refine ⟨by simp, ?_, by simp⟩
    intro hp hw
    rcases hwork with hwork | hwork
    · exact absurd hp hwork
    · exact absurd hw hwork
  · rw [hrep1]
    refine ⟨by simp, fun _ _ => by rw [mkBatchReport], fun h3 => ⟨hp, hw, ?_, ?_⟩⟩
    · rw [mkBatchReport]
    · intro s2 hstep
      cases hstep with
      | finish name ok hm =>
        rw [hw] at hm
        cases hm

/-- Witness for claim C6 at the completed state a one-item batch reaches
after its single item finishes: exactly the one success report is emitted. -/
theorem claim_C6_witness :
    (["a"] : List String) ≠ [] ∧
    (finishStep (initBatch ["a"]) "a" true).reports.length ≤ 1 ∧
    (finishStep (initBatch ["a"]) "a" true).reports =
      [if (finishStep (initBatch ["a"]) "a" true).failed.isEmpty
       then BatchReport.success (finishStep (initBatch ["a"]) "a" true).succeeded.length
       else BatchReport.warning
         (sortStrings (finishStep (initBatch ["a"]) "a" true).failed)] := by
  have h := claim_C6 ["a"] (finishStep (initBatch ["a"]) "a" true) (by decide)
    (Relation.ReflTransGen.tail Relation.ReflTransGen.refl
      (BatchStep.finish (initBatch ["a"]) "a" true (by decide)))
  exact ⟨by decide, h.1, h.2.1 (by decide) (by decide)⟩
